import Mathlib

/-!
Verification of the flow-based type inference engine of `method-ray`,
a static type checker for Ruby.  The definitions below are a shallow
embedding of the Rust sources: `src/src/types.rs` (the type lattice),
`src/rust/src/env/vertex_manager.rs` (the dataflow graph and
propagation), `src/rust/src/env/method_registry.rs`,
`src/rust/src/env/box_manager.rs` (the scheduler), and
`src/rust/src/analyzer/attr_methods.rs`.  Rust `HashMap`s keyed by
dense integer ids (or by structural keys) are embedded as insertion-
ordered association lists with overwriting insert, which matches the
lookup/insert semantics used by the code.  Parts of the crate that are
referenced but whose sources are not available (the `graph` module:
`Vertex`, `Source`, `MethodCallBox`, `ChangeSet`; the `env` scope
manager) are modelled from the specification, as marked on each such
definition.
-/

namespace MethodRay

/-! ## Association lists (embedding of `std::collections::HashMap`) -/

/-- Lookup in an association list, the embedding of `HashMap::get`. -/
def alookup {κ α : Type} [DecidableEq κ] : List (κ × α) → κ → Option α
  | [], _ => none
  | (k, v) :: rest, key => if k = key then some v else alookup rest key

/-- Overwriting insert, the embedding of `HashMap::insert`. -/
def ainsert {κ α : Type} [DecidableEq κ] : List (κ × α) → κ → α → List (κ × α)
  | [], key, val => [(key, val)]
  | (k, v) :: rest, key, val =>
    if k = key then (key, val) :: rest else (k, v) :: ainsert rest key val

theorem alookup_ainsert_self {κ α : Type} [DecidableEq κ]
    (l : List (κ × α)) (k : κ) (v : α) : alookup (ainsert l k v) k = some v := by
  induction l with
  | nil => simp [ainsert, alookup]
  | cons hd tl ih =>
    by_cases h : hd.1 = k <;> simp [ainsert, alookup, h, ih]

theorem alookup_ainsert_ne {κ α : Type} [DecidableEq κ]
    (l : List (κ × α)) (k k' : κ) (v : α) (hne : k ≠ k') :
    alookup (ainsert l k v) k' = alookup l k' := by
  induction l with
  | nil => simp [ainsert, alookup, hne]
  | cons hd tl ih =>
    by_cases h : hd.1 = k
    · simp [ainsert, alookup, h, hne]
    · by_cases h' : hd.1 = k' <;>
        simp [ainsert, alookup, h, h', ih, Ne.symm hne]

/-! ## The type lattice (`src/src/types.rs`) -/

/-- The inferred types (`enum Type` in `src/src/types.rs`). -/
inductive Ty where
  | instance (class_name : String)
  | singleton (class_name : String)
  | nil
  | union (types : List Ty)
  | bot

mutual

/-- Structural equality test on types (`#[derive(PartialEq, Eq)]` on
`Type`). -/
def Ty.beq : Ty → Ty → Bool
  | .instance a, .instance b => a == b
  | .singleton a, .singleton b => a == b
  | .nil, .nil => true
  | .union a, .union b => Ty.lbeq a b
  | .bot, .bot => true
  | _, _ => false

/-- Structural equality test on lists of types. -/
def Ty.lbeq : List Ty → List Ty → Bool
  | [], [] => true
  | a :: as, b :: bs => Ty.beq a b && Ty.lbeq as bs
  | _, _ => false

end

theorem Ty.beq_iff_eq_all (n : ℕ) :
    (∀ a b : Ty, sizeOf a ≤ n → (Ty.beq a b = true ↔ a = b)) ∧
      (∀ as bs : List Ty, sizeOf as ≤ n → (Ty.lbeq as bs = true ↔ as = bs)) := by
  induction n using Nat.strong_induction_on with
  | _ n ih =>
    constructor
    · intro a b hle
      cases a <;> cases b <;> simp_all [Ty.beq]
      case union.union x y =>
        have hx : sizeOf x < n := by
          have : 1 + sizeOf x ≤ n := by simpa using hle
          omega
        exact (ih (sizeOf x) hx).2 x y (le_refl _)
    · intro as bs hle
      cases as with
      | nil => cases bs <;> simp [Ty.lbeq]
      | cons a rest =>
        cases bs with
        | nil => simp [Ty.lbeq]
        | cons b rest' =>
          have h1 : sizeOf a < n := by
            have : 1 + sizeOf a + sizeOf rest ≤ n := by simpa using hle
            have hp : 0 < sizeOf rest := by cases rest <;> simp
            omega
          have h2 : sizeOf rest < n := by
            have : 1 + sizeOf a + sizeOf rest ≤ n := by simpa using hle
            have hp : 0 < sizeOf a := by cases a <;> simp
            omega
          simp [Ty.lbeq, Bool.and_eq_true,
            (ih (sizeOf a) h1).1 a b (le_refl _),
            (ih (sizeOf rest) h2).2 rest rest' (le_refl _)]

theorem Ty.beq_iff_eq (a b : Ty) : Ty.beq a b = true ↔ a = b :=
  (Ty.beq_iff_eq_all (sizeOf a)).1 a b (le_refl _)

instance : DecidableEq Ty := fun a b =>
  decidable_of_iff (Ty.beq a b = true) (Ty.beq_iff_eq a b)

mutual

/-- `Type::show` (`src/src/types.rs` lines 20-31): `Instance` shows as its
class name, `Singleton` as `singleton(C)`, `Nil` as `nil`, `Union` as the
member strings joined by a bar, `Bot` as `untyped`. -/
def Ty.show : Ty → String
  | .instance c => c
  | .singleton c => "singleton(" ++ c ++ ")"
  | .nil => "nil"
  | .union ts => String.intercalate (" | ") (Ty.showList ts)
  | .bot => "untyped"

/-- The member strings of a union (`types.iter().map(|t| t.show())`). -/
def Ty.showList : List Ty → List String
  | [] => []
  | t :: ts => Ty.show t :: Ty.showList ts

end

/-- `Type::string()`. -/
def Ty.str : Ty := .instance ("String")

/-- `Type::integer()`. -/
def Ty.int : Ty := .instance ("Integer")

/-! ## Method registry (`src/rust/src/env/method_registry.rs`) -/

/-- `MethodInfo`: just a return type. -/
structure MethodInfo where
  return_type : Ty
deriving DecidableEq

/-- `MethodRegistry`: a map from `(receiver type, method name)` to
`MethodInfo`. -/
abbrev Registry : Type := List ((Ty × String) × MethodInfo)

/-- `MethodRegistry::new`. -/
def Registry.empty : Registry := []

/-- `MethodRegistry::register`: overwriting insert at the structural key
`(recv_ty, method_name)`. -/
def Registry.register (r : Registry) (recv_ty : Ty) (method_name : String)
    (ret_ty : Ty) : Registry :=
  ainsert r (recv_ty, method_name) ⟨ret_ty⟩

/-- `MethodRegistry::resolve`: exact structural lookup. -/
def Registry.resolve (r : Registry) (recv_ty : Ty) (method_name : String) :
    Option MethodInfo :=
  alookup r (recv_ty, method_name)

/-! ## Graph nodes

The `graph` module of the crate (struct `Vertex`, struct `Source`) is not
among the available sources; only its callers (`vertex_manager.rs`) and
tests are.  The definitions below are modelled from §3 and §4.2 of the
spec. -/

/-- Modelled from the spec: struct `Vertex` of the missing `graph` module.
`types` is the insertion-ordered map from each inhabited `Type` to the set
of source vertex ids that contributed it, `next` the ordered downstream
vertex ids, `boxes` the subscribed box ids (§3). -/
structure Vertex where
  types : List (Ty × List Nat)
  next : List Nat
  boxes : List Nat
deriving DecidableEq

/-- `Vertex::new`: an empty mutable vertex. -/
def Vertex.new : Vertex := ⟨[], [], []⟩

/-- Modelled from the spec: `Vertex::add_next` records a downstream id in
the ordered `next` sequence (§4.2 `add_edge` records `dst` in `src.next`). -/
def Vertex.add_next (v : Vertex) (dst : Nat) : Vertex :=
  { v with next := v.next ++ [dst] }

/-- Record one contributed type in the type map: if the type is already a
key, at most add the origin to its origin set (a given (type, origin) pair
is recorded once, §4.2); otherwise append a new entry.  The boolean tells
whether the type is new to the map. -/
def insertTypeOrigin : List (Ty × List Nat) → Nat → Ty → List (Ty × List Nat) × Bool
  | [], origin, t => ([(t, [origin])], true)
  | (t', os) :: rest, origin, t =>
    if t' = t then
      ((t', if origin ∈ os then os else os ++ [origin]) :: rest, false)
    else
      let r := insertTypeOrigin rest origin t
      ((t', os) :: r.1, r.2)

/-- Record a batch of contributed types, returning the updated map and the
delta: the sub-list of types that were newly added, in order. -/
def addTypesGo (origin : Nat) : List (Ty × List Nat) → List Ty → List (Ty × List Nat) × List Ty
  | m, [] => (m, [])
  | m, t :: ts =>
    let r := insertTypeOrigin m origin t
    let r' := addTypesGo origin r.1 ts
    (r'.1, if r.2 then t :: r'.2 else r'.2)

/-- Modelled from the spec: `Vertex::on_type_added(origin, types)` adds the
given types to the vertex and returns one `(next_target, delta_types)` pair
per downstream vertex, carrying only the newly added types; re-adding a
type already present contributes no downstream work (§4.2). -/
def Vertex.on_type_added (v : Vertex) (origin : Nat) (ts : List Ty) :
    Vertex × List (Nat × List Ty) :=
  let r := addTypesGo origin v.types ts
  ({ v with types := r.1 },
    if r.2.isEmpty then [] else v.next.map (fun n => (n, r.2)))

/-- The type keys of a vertex type map (`vtx.types.keys()`). -/
def tkeys (m : List (Ty × List Nat)) : List Ty := m.map (fun p => p.1)

/-! ## VertexManager (`src/rust/src/env/vertex_manager.rs`) -/

/-- `VertexManager`: vertices and sources share one dense id space
(`next_vertex_id`). -/
structure VertexManager where
  vertices : List (Nat × Vertex)
  sources : List (Nat × Ty)
  next_vertex_id : Nat
deriving DecidableEq

/-- `VertexManager::new`. -/
def VertexManager.new : VertexManager := ⟨[], [], 0⟩

/-- `VertexManager::new_vertex`: allocate an empty vertex under a fresh id. -/
def VertexManager.new_vertex (vm : VertexManager) : VertexManager × Nat :=
  let id := vm.next_vertex_id
  ({ vm with
      vertices := ainsert vm.vertices id Vertex.new
      next_vertex_id := id + 1 }, id)

/-- `VertexManager::new_source`: allocate a fixed-type source under a fresh
id. -/
def VertexManager.new_source (vm : VertexManager) (ty : Ty) : VertexManager × Nat :=
  let id := vm.next_vertex_id
  ({ vm with
      sources := ainsert vm.sources id ty
      next_vertex_id := id + 1 }, id)

/-- `VertexManager::get_vertex`. -/
def VertexManager.get_vertex (vm : VertexManager) (id : Nat) : Option Vertex :=
  alookup vm.vertices id

/-- `VertexManager::get_source` (a source is just its fixed type). -/
def VertexManager.get_source (vm : VertexManager) (id : Nat) : Option Ty :=
  alookup vm.sources id

/-- `VertexManager::get_types`: the type keys of a vertex, the sole type of
a source, or nothing. -/
def VertexManager.get_types (vm : VertexManager) (id : Nat) : List Ty :=
  match alookup vm.vertices id with
  | some v => tkeys v.types
  | none =>
    match alookup vm.sources id with
    | some t => [t]
    | none => []

/-- The recursion of `VertexManager::propagate_types`, written with an
explicit work stack: each work item `(src_id, dst_id, ts)` is one pending
call.  If the target of the head item is a vertex, record the types through
`on_type_added` and push the returned `(next_target, delta_types)` pairs in
front of the remaining work (the depth-first, insertion-order recursion of
the code, §5); if the target is a source or unknown, do nothing (`return`).
The `fuel` argument bounds the number of steps; `none` means the fuel ran
out before propagation completed. -/
def VertexManager.propagate_work :
    VertexManager → Nat → List (Nat × Nat × List Ty) → Option VertexManager
  | vm, _, [] => some vm
  | _, 0, _ :: _ => none
  | vm, fuel + 1, (src_id, dst_id, ts) :: rest =>
    match alookup vm.vertices dst_id with
    | some v =>
      let r := v.on_type_added src_id ts
      let vm1 := { vm with vertices := ainsert vm.vertices dst_id r.1 }
      VertexManager.propagate_work vm1 fuel
        (r.2.map (fun pr => (dst_id, pr.1, pr.2)) ++ rest)
    | none => VertexManager.propagate_work vm fuel rest

/-- `VertexManager::propagate_types`: one initial pending call. -/
def VertexManager.propagate_types (vm : VertexManager) (fuel : Nat)
    (src_id dst_id : Nat) (ts : List Ty) : Option VertexManager :=
  vm.propagate_work fuel [(src_id, dst_id, ts)]

/-- `VertexManager::propagate_from`: gather the current types of `src` and
forward them to `dst` (nothing to do when there are none). -/
def VertexManager.propagate_from (vm : VertexManager) (fuel : Nat)
    (src dst : Nat) : Option VertexManager :=
  let ts := vm.get_types src
  if ts.isEmpty then some vm else vm.propagate_types fuel src dst ts

/-- `VertexManager::add_edge`: record `dst` in `src.next` when `src` is a
vertex (no-op otherwise), then propagate. -/
def VertexManager.add_edge (vm : VertexManager) (fuel : Nat)
    (src dst : Nat) : Option VertexManager :=
  let vm1 :=
    match alookup vm.vertices src with
    | some v => { vm with vertices := ainsert vm.vertices src (v.add_next dst) }
    | none => vm
  vm1.propagate_from fuel src dst

/-- The public graph-mutating operations of the `VertexManager`. -/
inductive VOp where
  | new_vertex
  | new_source (ty : Ty)
  | add_edge (src dst : Nat)
deriving DecidableEq

/-- Apply one operation. -/
def applyVOp (fuel : Nat) (vm : VertexManager) : VOp → Option VertexManager
  | .new_vertex => some (vm.new_vertex).1
  | .new_source ty => some (vm.new_source ty).1
  | .add_edge src dst => vm.add_edge fuel src dst

/-- Run a sequence of operations. -/
def runVOps (fuel : Nat) : List VOp → VertexManager → Option VertexManager
  | [], vm => some vm
  | op :: rest, vm =>
    match applyVOp fuel vm op with
    | some vm' => runVOps fuel rest vm'
    | none => none

/-! ## Basic lemmas about the association-list embedding -/

theorem alookup_some_mem {κ α : Type} [DecidableEq κ]
    {l : List (κ × α)} {k : κ} {v : α} (h : alookup l k = some v) : (k, v) ∈ l := by
  induction l with
  | nil => simp [alookup] at h
  | cons hd tl ih =>
    obtain ⟨k', v'⟩ := hd
    by_cases hk : k' = k
    · subst hk
      simp [alookup] at h
      subst h
      exact List.mem_cons_self _ _
    · simp [alookup, hk] at h
      exact List.mem_cons_of_mem _ (ih h)

theorem tkeys_cons (p : Ty × List Nat) (l : List (Ty × List Nat)) :
    tkeys (p :: l) = p.1 :: tkeys l := rfl

theorem mem_ainsert {κ α : Type} [DecidableEq κ]
    {l : List (κ × α)} {k : κ} {v : α} {p : κ × α} (h : p ∈ ainsert l k v) :
    p ∈ l ∨ p = (k, v) := by
  induction l with
  | nil => simp [ainsert] at h; simp [h]
  | cons hd tl ih =>
    by_cases hk : hd.1 = k
    · simp [ainsert, hk] at h
      rcases h with h | h
      · right; simp [h]
      · left; exact List.mem_cons_of_mem _ h
    · simp [ainsert, hk] at h
      rcases h with h | h
      · left; simp [h]
      · rcases ih h with h' | h'
        · left; exact List.mem_cons_of_mem _ h'
        · right; exact h'

/-! ## Lemmas about the type map of a vertex -/

theorem mem_tkeys_insertTypeOrigin (m : List (Ty × List Nat)) (o : Nat) (t x : Ty) :
    x ∈ tkeys (insertTypeOrigin m o t).1 ↔ x ∈ tkeys m ∨ x = t := by
  induction m with
  | nil => simp [insertTypeOrigin, tkeys]
  | cons hd tl ih =>
    obtain ⟨t', os⟩ := hd
    by_cases h : t' = t
    · subst h
      simp [insertTypeOrigin, tkeys_cons, List.mem_cons]
      tauto
    · simp only [insertTypeOrigin, h, if_false, tkeys_cons, List.mem_cons]
      rw [ih]
      tauto

theorem insertTypeOrigin_false (m : List (Ty × List Nat)) (o : Nat) (t : Ty)
    (h : (insertTypeOrigin m o t).2 = false) : t ∈ tkeys m := by
  induction m with
  | nil => simp [insertTypeOrigin] at h
  | cons hd tl ih =>
    obtain ⟨t', os⟩ := hd
    by_cases hk : t' = t
    · subst hk
      simp [tkeys_cons]
    · simp only [insertTypeOrigin, hk, if_false] at h
      rw [tkeys_cons]
      exact List.mem_cons_of_mem _ (ih h)

theorem addTypesGo_mem_tkeys (o : Nat) (ts : List Ty) :
    ∀ (m : List (Ty × List Nat)) (x : Ty),
      x ∈ tkeys (addTypesGo o m ts).1 ↔ x ∈ tkeys m ∨ x ∈ ts := by
  induction ts with
  | nil => simp [addTypesGo]
  | cons t ts ih =>
    intro m x
    simp only [addTypesGo]
    rw [ih]
    rw [mem_tkeys_insertTypeOrigin]
    simp only [List.mem_cons]
    tauto

theorem addTypesGo_delta_sub (o : Nat) (ts : List Ty) :
    ∀ (m : List (Ty × List Nat)) (x : Ty), x ∈ (addTypesGo o m ts).2 → x ∈ ts := by
  induction ts with
  | nil => simp [addTypesGo]
  | cons t ts ih =>
    intro m x h
    simp only [addTypesGo] at h
    by_cases hnew : (insertTypeOrigin m o t).2
    · simp [hnew] at h
      rcases h with h | h
      · simp [h]
      · exact List.mem_cons_of_mem _ (ih _ _ h)
    · simp [Bool.not_eq_true] at hnew
      simp [hnew] at h
      exact List.mem_cons_of_mem _ (ih _ _ h)

theorem addTypesGo_cover (o : Nat) (ts : List Ty) :
    ∀ (m : List (Ty × List Nat)) (x : Ty), x ∈ ts →
      x ∈ tkeys m ∨ x ∈ (addTypesGo o m ts).2 := by
  induction ts with
  | nil => simp
  | cons t ts ih =>
    intro m x hx
    simp only [addTypesGo]
    rcases List.mem_cons.1 hx with h | h
    · subst h
      by_cases hnew : (insertTypeOrigin m o x).2
      · right; simp [hnew]
      · simp [Bool.not_eq_true] at hnew
        left; exact insertTypeOrigin_false _ _ _ hnew
    · rcases ih (insertTypeOrigin m o t).1 x h with h' | h'
      · rcases (mem_tkeys_insertTypeOrigin m o t x).1 h' with h'' | h''
        · left; exact h''
        · subst h''
          by_cases hnew : (insertTypeOrigin m o x).2
          · right; simp [hnew]
          · simp [Bool.not_eq_true] at hnew
            left; exact insertTypeOrigin_false _ _ _ hnew
      · right
        by_cases hnew : (insertTypeOrigin m o t).2 <;> simp [hnew, h']

/-! ## Lemmas about `Vertex.on_type_added` -/

theorem on_type_added_next (v : Vertex) (o : Nat) (ts : List Ty) :
    (v.on_type_added o ts).1.next = v.next := rfl

theorem on_type_added_boxes (v : Vertex) (o : Nat) (ts : List Ty) :
    (v.on_type_added o ts).1.boxes = v.boxes := rfl

theorem on_type_added_mem_tkeys (v : Vertex) (o : Nat) (ts : List Ty) (x : Ty) :
    x ∈ tkeys (v.on_type_added o ts).1.types ↔ x ∈ tkeys v.types ∨ x ∈ ts := by
  simpa [Vertex.on_type_added] using addTypesGo_mem_tkeys o ts v.types x

theorem on_type_added_props_mem (v : Vertex) (o : Nat) (ts : List Ty)
    {pr : Nat × List Ty} (h : pr ∈ (v.on_type_added o ts).2) :
    pr.1 ∈ v.next ∧ ∀ x ∈ pr.2, x ∈ ts := by
  simp only [Vertex.on_type_added] at h
  by_cases he : (addTypesGo o v.types ts).2.isEmpty
  · simp [he] at h
  · simp [he] at h
    rcases h with ⟨n, hn, hpr⟩
    subst hpr
    exact ⟨hn, fun x hx => addTypesGo_delta_sub o ts v.types x hx⟩

theorem on_type_added_cover (v : Vertex) (o : Nat) (ts : List Ty) (t : Ty)
    (ht : t ∈ ts) (hnot : t ∉ tkeys v.types) :
    ∀ n ∈ v.next, ∃ pr ∈ (v.on_type_added o ts).2, pr.1 = n ∧ t ∈ pr.2 := by
  intro n hn
  have hδ : t ∈ (addTypesGo o v.types ts).2 := by
    rcases addTypesGo_cover o ts v.types t ht with h | h
    · exact absurd h hnot
    · exact h
  have hne : (addTypesGo o v.types ts).2.isEmpty = false := by
    cases hδl : (addTypesGo o v.types ts).2 with
    | nil => rw [hδl] at hδ; simp at hδ
    | cons a l => simp [hδl]
  have hmem : (n, (addTypesGo o v.types ts).2) ∈ (v.on_type_added o ts).2 := by
    simp only [Vertex.on_type_added, hne, Bool.false_eq_true, if_false]
    exact List.mem_map_of_mem _ hn
  exact ⟨_, hmem, rfl, hδ⟩

theorem alookup_ainsert {κ α : Type} [DecidableEq κ]
    (l : List (κ × α)) (k k' : κ) (v : α) :
    alookup (ainsert l k v) k' = if k = k' then some v else alookup l k' := by
  by_cases h : k = k'
  · subst h; simp [alookup_ainsert_self]
  · simp [h, alookup_ainsert_ne l k k' v h]

/-! ## Structure preservation along a propagation -/

/-- Relation between the vertex table before and after a propagation: same
ids in the same order, each vertex keeping its `next` and `boxes` lists and
at most gaining type keys. -/
def vtxTableLE (l l' : List (Nat × Vertex)) : Prop :=
  List.Forall₂ (fun p p' => p'.1 = p.1 ∧ p'.2.next = p.2.next ∧
    p'.2.boxes = p.2.boxes ∧ ∀ t ∈ tkeys p.2.types, t ∈ tkeys p'.2.types) l l'

theorem vtxTableLE_refl (l : List (Nat × Vertex)) : vtxTableLE l l :=
  List.forall₂_same.2 (fun _ _ => ⟨rfl, rfl, rfl, fun _ ht => ht⟩)

theorem vtxTableLE_trans {l1 l2 l3 : List (Nat × Vertex)}
    (h1 : vtxTableLE l1 l2) (h2 : vtxTableLE l2 l3) : vtxTableLE l1 l3 := by
  induction h1 generalizing l3 with
  | nil => cases h2; exact List.Forall₂.nil
  | cons hab h1' ih =>
    cases h2 with
    | cons hbc h2' =>
      exact List.Forall₂.cons
        ⟨hbc.1.trans hab.1, hbc.2.1.trans hab.2.1, hbc.2.2.1.trans hab.2.2.1,
          fun t ht => hbc.2.2.2 t (hab.2.2.2 t ht)⟩ (ih h2')

theorem vtxTableLE_alookup_some {l l' : List (Nat × Vertex)}
    (h : vtxTableLE l l') {k : Nat} {v : Vertex} (hl : alookup l k = some v) :
    ∃ v', alookup l' k = some v' ∧ v'.next = v.next ∧ v'.boxes = v.boxes ∧
      ∀ t ∈ tkeys v.types, t ∈ tkeys v'.types := by
  induction h with
  | nil => simp [alookup] at hl
  | cons hab h' ih =>
    rename_i p p' _ _
    by_cases hk : p.1 = k
    · obtain ⟨k1, v1⟩ := p
      obtain ⟨k2, v2⟩ := p'
      simp at hk
      subst hk
      simp [alookup] at hl
      subst hl
      refine ⟨v2, ?_, hab.2.1, hab.2.2.1, hab.2.2.2⟩
      have hk21 : k2 = k1 := hab.1
      simp [alookup, hk21]
    · obtain ⟨k1, v1⟩ := p
      obtain ⟨k2, v2⟩ := p'
      simp at hk
      simp [alookup, hk] at hl
      have hk2 : k2 = k1 := hab.1
      simp [alookup, hk2, hk]
      exact ih hl

theorem vtxTableLE_alookup_none {l l' : List (Nat × Vertex)}
    (h : vtxTableLE l l') {k : Nat} (hl : alookup l k = none) :
    alookup l' k = none := by
  induction h with
  | nil => simp [alookup]
  | cons hab h' ih =>
    rename_i p p' _ _
    obtain ⟨k1, v1⟩ := p
    obtain ⟨k2, v2⟩ := p'
    have hk2 : k2 = k1 := hab.1
    by_cases hk : k1 = k
    · simp [alookup, hk] at hl
    · simp [alookup, hk] at hl
      simp [alookup, hk2, hk]
      exact ih hl

theorem vtxTableLE_ainsert {l : List (Nat × Vertex)} {k : Nat} {v w : Vertex}
    (hl : alookup l k = some v) (hnext : w.next = v.next)
    (hboxes : w.boxes = v.boxes)
    (hkeys : ∀ t ∈ tkeys v.types, t ∈ tkeys w.types) :
    vtxTableLE l (ainsert l k w) := by
  induction l with
  | nil => simp [alookup] at hl
  | cons hd tl ih =>
    obtain ⟨k1, v1⟩ := hd
    by_cases hk : k1 = k
    · subst hk
      simp [alookup] at hl
      subst hl
      simp [ainsert]
      exact List.Forall₂.cons ⟨rfl, hnext, hboxes, hkeys⟩ (vtxTableLE_refl tl)
    · simp [alookup, hk] at hl
      simp [ainsert, hk]
      exact List.Forall₂.cons ⟨rfl, rfl, rfl, fun _ ht => ht⟩ (ih hl)

/-- A completed propagation keeps the id table's shape: same vertex ids,
same `next` and `boxes` lists, type keys only grow, sources and the id
counter untouched. -/
theorem propagate_work_pres (fuel : Nat) :
    ∀ (work : List (Nat × Nat × List Ty)) (vm vm' : VertexManager),
      vm.propagate_work fuel work = some vm' →
      vtxTableLE vm.vertices vm'.vertices ∧ vm'.sources = vm.sources ∧
        vm'.next_vertex_id = vm.next_vertex_id := by
  induction fuel with
  | zero =>
    intro work vm vm' h
    cases work with
    | nil =>
      simp [VertexManager.propagate_work] at h
      subst h
      exact ⟨vtxTableLE_refl _, rfl, rfl⟩
    | cons w rest => simp [VertexManager.propagate_work] at h
  | succ fuel ih =>
    intro work vm vm' h
    cases work with
    | nil =>
      simp [VertexManager.propagate_work] at h
      subst h
      exact ⟨vtxTableLE_refl _, rfl, rfl⟩
    | cons w rest =>
      obtain ⟨s, d, ts⟩ := w
      cases halo : alookup vm.vertices d with
      | some v =>
        simp only [VertexManager.propagate_work, halo] at h
        rcases ih _ _ _ h with ⟨h1, h2, h3⟩
        refine ⟨?_, h2, h3⟩
        exact vtxTableLE_trans
          (vtxTableLE_ainsert halo (on_type_added_next v s ts)
            (on_type_added_boxes v s ts)
            (fun t ht => (on_type_added_mem_tkeys v s ts t).2 (Or.inl ht))) h1
      | none =>
        simp only [VertexManager.propagate_work, halo] at h
        exact ih _ _ _ h

/-! ## The edge-subset invariant (claim C1) -/

/-- The quiescence invariant on committed edges: along every recorded edge
`u → x` whose destination is a (mutable) vertex, every type key of `u` is a
type key of `x`. -/
def InvC1 (vm : VertexManager) : Prop :=
  ∀ u x wu wx, alookup vm.vertices u = some wu → x ∈ wu.next →
    alookup vm.vertices x = some wx →
    ∀ t ∈ tkeys wu.types, t ∈ tkeys wx.types

/-- The invariant relative to a pending work list: every missing type along
an edge is justified by a pending propagation into the edge's destination. -/
def WorkInv (vm : VertexManager) (work : List (Nat × Nat × List Ty)) : Prop :=
  ∀ u x wu wx, alookup vm.vertices u = some wu → x ∈ wu.next →
    alookup vm.vertices x = some wx →
    ∀ t ∈ tkeys wu.types,
      t ∈ tkeys wx.types ∨ ∃ w ∈ work, w.2.1 = x ∧ t ∈ w.2.2

theorem workInv_nil {vm : VertexManager} (h : WorkInv vm []) : InvC1 vm := by
  intro u x wu wx hu hx hax t ht
  rcases h u x wu wx hu hx hax t ht with h' | ⟨w, hw, _⟩
  · exact h'
  · simp at hw

theorem workInv_skip {vm : VertexManager} {s d : Nat} {ts : List Ty}
    {rest : List (Nat × Nat × List Ty)} (halo : alookup vm.vertices d = none)
    (hw : WorkInv vm ((s, d, ts) :: rest)) : WorkInv vm rest := by
  intro u x wu wx hu hx hax t ht
  rcases hw u x wu wx hu hx hax t ht with h' | ⟨w, hwmem, hwx, hwt⟩
  · exact Or.inl h'
  · rcases List.mem_cons.1 hwmem with h' | h'
    · subst h'
      simp at hwx
      rw [hwx] at halo
      rw [halo] at hax
      cases hax
    · exact Or.inr ⟨w, h', hwx, hwt⟩

theorem workInv_step {vm : VertexManager} {s d : Nat} {ts : List Ty}
    {rest : List (Nat × Nat × List Ty)} {v : Vertex}
    (halo : alookup vm.vertices d = some v)
    (hw : WorkInv vm ((s, d, ts) :: rest)) :
    WorkInv { vm with vertices := ainsert vm.vertices d (v.on_type_added s ts).1 }
      ((v.on_type_added s ts).2.map (fun pr => (d, pr.1, pr.2)) ++ rest) := by
  intro u x wu wx hu hx hax t ht
  simp only [alookup_ainsert] at hu hax
  have hkeys1 := on_type_added_mem_tkeys v s ts
  by_cases hud : d = u
  · subst hud
    simp at hu
    subst hu
    have hnext : (v.on_type_added s ts).1.next = v.next := on_type_added_next v s ts
    rw [hnext] at hx
    rcases (hkeys1 t).1 ht with htv | hts
    · -- the type was already on the vertex before this step
      by_cases hxd : d = x
      · subst hxd
        simp at hax
        subst hax
        exact Or.inl ht
      · simp [hxd] at hax
        rcases hw d x v wx halo hx hax t htv with h' | ⟨w, hwmem, hwx, hwt⟩
        · exact Or.inl h'
        · rcases List.mem_cons.1 hwmem with h' | h'
          · subst h'
            simp at hwx
            exact absurd hwx hxd
          · exact Or.inr ⟨w, List.mem_append_right _ h', hwx, hwt⟩
    · -- the type arrived with this step
      by_cases hxd : d = x
      · subst hxd
        simp at hax
        subst hax
        exact Or.inl ht
      · by_cases htv : t ∈ tkeys v.types
        · simp [hxd] at hax
          rcases hw d x v wx halo hx hax t htv with h' | ⟨w, hwmem, hwx, hwt⟩
          · exact Or.inl h'
          · rcases List.mem_cons.1 hwmem with h' | h'
            · subst h'
              simp at hwx
              exact absurd hwx hxd
            · exact Or.inr ⟨w, List.mem_append_right _ h', hwx, hwt⟩
        · rcases on_type_added_cover v s ts t hts htv x hx with ⟨pr, hpr, hprx, hprt⟩
          refine Or.inr ⟨(d, pr.1, pr.2), ?_, by simpa using hprx, hprt⟩
          exact List.mem_append_left _ (List.mem_map_of_mem _ hpr)
  · simp [hud] at hu
    by_cases hxd : d = x
    · subst hxd
      simp at hax
      subst hax
      rcases hw u d wu v hu hx halo t ht with h' | ⟨w, hwmem, hwx, hwt⟩
      · exact Or.inl ((hkeys1 t).2 (Or.inl h'))
      · rcases List.mem_cons.1 hwmem with h' | h'
        · subst h'
          simp at hwx
          exact Or.inl ((hkeys1 t).2 (Or.inr hwt))
        · exact Or.inr ⟨w, List.mem_append_right _ h', hwx, hwt⟩
    · simp [hxd] at hax
      rcases hw u x wu wx hu hx hax t ht with h' | ⟨w, hwmem, hwx, hwt⟩
      · exact Or.inl h'
      · rcases List.mem_cons.1 hwmem with h' | h'
        · subst h'
          simp at hwx
          exact absurd hwx hxd
        · exact Or.inr ⟨w, List.mem_append_right _ h', hwx, hwt⟩

/-- A completed propagation discharges all its pending obligations. -/
theorem propagate_work_inv (fuel : Nat) :
    ∀ (work : List (Nat × Nat × List Ty)) (vm vm' : VertexManager),
      vm.propagate_work fuel work = some vm' → WorkInv vm work → InvC1 vm' := by
  induction fuel with
  | zero =>
    intro work vm vm' h hw
    cases work with
    | nil =>
      simp [VertexManager.propagate_work] at h
      subst h
      exact workInv_nil hw
    | cons w rest => simp [VertexManager.propagate_work] at h
  | succ fuel ih =>
    intro work vm vm' h hw
    cases work with
    | nil =>
      simp [VertexManager.propagate_work] at h
      subst h
      exact workInv_nil hw
    | cons w rest =>
      obtain ⟨s, d, ts⟩ := w
      cases halo : alookup vm.vertices d with
      | some v =>
        simp only [VertexManager.propagate_work, halo] at h
        exact ih _ _ _ h (workInv_step halo hw)
      | none =>
        simp only [VertexManager.propagate_work, halo] at h
        exact ih _ _ _ h (workInv_skip halo hw)

theorem vtxTableLE_mem_right {l l' : List (Nat × Vertex)} (h : vtxTableLE l l')
    {p' : Nat × Vertex} (hp' : p' ∈ l') :
    ∃ p ∈ l, p'.1 = p.1 ∧ p'.2.next = p.2.next := by
  induction h with
  | nil => simp at hp'
  | cons hab h' ih =>
    rcases List.mem_cons.1 hp' with h1 | h1
    · subst h1
      exact ⟨_, List.mem_cons_self _ _, hab.1, hab.2.1⟩
    · rcases ih h1 with ⟨p, hp, h2, h3⟩
      exact ⟨p, List.mem_cons_of_mem _ hp, h2, h3⟩

/-! ## Reachable-state invariants of the `VertexManager` -/

/-- All allocated ids are below the allocation counter (ids are dense and
never reused). -/
def FreshInv (vm : VertexManager) : Prop :=
  (∀ p ∈ vm.vertices, p.1 < vm.next_vertex_id) ∧
    (∀ p ∈ vm.sources, p.1 < vm.next_vertex_id)

/-- All recorded `next` entries point below the allocation counter. -/
def EdgeClosed (vm : VertexManager) : Prop :=
  ∀ p ∈ vm.vertices, ∀ x ∈ p.2.next, x < vm.next_vertex_id

instance (vm : VertexManager) : Decidable (FreshInv vm) :=
  instDecidableAnd

instance (vm : VertexManager) : Decidable (EdgeClosed vm) :=
  List.decidableBAll _ _

/-- The combined reachable-state invariant used for claim C1. -/
def GoodVM (vm : VertexManager) : Prop :=
  InvC1 vm ∧ EdgeClosed vm ∧ FreshInv vm

/-- Edge additions whose destination is an already-allocated id (the only
edges the installer ever commits: both endpoints come from `new_vertex` /
`new_source`). -/
def validVOps : Nat → List VOp → Bool
  | _, [] => true
  | n, VOp.new_vertex :: r => validVOps (n + 1) r
  | n, VOp.new_source _ :: r => validVOps (n + 1) r
  | n, VOp.add_edge _ d :: r => decide (d < n) && validVOps n r

theorem alookup_vertices_none_of_ge {vm : VertexManager} (hF : FreshInv vm)
    {k : Nat} (hk : vm.next_vertex_id ≤ k) : alookup vm.vertices k = none := by
  cases h : alookup vm.vertices k with
  | none => rfl
  | some w =>
    have := hF.1 _ (alookup_some_mem h)
    omega

theorem goodVM_new_vertex {vm : VertexManager} (hg : GoodVM vm) :
    GoodVM (vm.new_vertex).1 := by
  obtain ⟨hInv, hE, hF⟩ := hg
  refine ⟨?_, ?_, ?_, ?_⟩
  · intro u x wu wx hu hx hax t ht
    simp only [VertexManager.new_vertex, alookup_ainsert] at hu hax
    by_cases hidu : vm.next_vertex_id = u
    · simp [hidu] at hu
      subst hu
      simp [Vertex.new] at hx
    · simp [hidu] at hu
      have hxlt : x < vm.next_vertex_id := hE _ (alookup_some_mem hu) x hx
      have hidx : ¬(vm.next_vertex_id = x) := by omega
      simp [hidx] at hax
      exact hInv u x wu wx hu hx hax t ht
  · intro p hp x hx
    simp only [VertexManager.new_vertex] at hp
    rcases mem_ainsert hp with h | h
    · have := hE _ h x hx
      simp [VertexManager.new_vertex]
      omega
    · subst h
      simp [Vertex.new] at hx
  · intro p hp
    simp only [VertexManager.new_vertex] at hp ⊢
    rcases mem_ainsert hp with h | h
    · have := hF.1 _ h
      omega
    · subst h
      simp
  · intro p hp
    simp only [VertexManager.new_vertex] at hp ⊢
    have := hF.2 _ hp
    omega

theorem goodVM_new_source {vm : VertexManager} (ty : Ty) (hg : GoodVM vm) :
    GoodVM (vm.new_source ty).1 := by
  obtain ⟨hInv, hE, hF⟩ := hg
  refine ⟨?_, ?_, ?_, ?_⟩
  · intro u x wu wx hu hx hax t ht
    simp only [VertexManager.new_source] at hu hax
    exact hInv u x wu wx hu hx hax t ht
  · intro p hp x hx
    simp only [VertexManager.new_source] at hp ⊢
    have := hE _ hp x hx
    omega
  · intro p hp
    simp only [VertexManager.new_source] at hp ⊢
    have := hF.1 _ hp
    omega
  · intro p hp
    simp only [VertexManager.new_source] at hp ⊢
    rcases mem_ainsert hp with h | h
    · have := hF.2 _ h
      omega
    · subst h
      simp

theorem goodVM_propagate {vm vm' : VertexManager} {fuel : Nat}
    {work : List (Nat × Nat × List Ty)}
    (h : vm.propagate_work fuel work = some vm')
    (hW : WorkInv vm work) (hE : EdgeClosed vm) (hF : FreshInv vm) :
    GoodVM vm' := by
  rcases propagate_work_pres fuel work vm vm' h with ⟨hLE, hsrc, hid⟩
  refine ⟨propagate_work_inv fuel work vm vm' h hW, ?_, ?_, ?_⟩
  · intro p hp x hx
    rcases vtxTableLE_mem_right hLE hp with ⟨q, hq, hkeq, hneq⟩
    rw [hneq] at hx
    rw [hid]
    exact hE _ hq x hx
  · intro p hp
    rcases vtxTableLE_mem_right hLE hp with ⟨q, hq, hkeq, _⟩
    rw [hid, hkeq]
    exact hF.1 _ hq
  · intro p hp
    rw [hsrc] at hp
    rw [hid]
    exact hF.2 _ hp

theorem goodVM_add_edge {vm vm' : VertexManager} {fuel s d : Nat}
    (hd : d < vm.next_vertex_id)
    (h : vm.add_edge fuel s d = some vm') (hg : GoodVM vm) : GoodVM vm' := by
  obtain ⟨hInv, hE, hF⟩ := hg
  unfold VertexManager.add_edge at h
  cases hs : alookup vm.vertices s with
  | none =>
    rw [hs] at h
    unfold VertexManager.propagate_from at h
    by_cases hts : (vm.get_types s).isEmpty
    · simp [hts] at h
      subst h
      exact ⟨hInv, hE, hF⟩
    · simp [hts] at h
      refine goodVM_propagate h ?_ hE hF
      intro u x wu wx hu hx hax t ht
      exact Or.inl (hInv u x wu wx hu hx hax t ht)
  | some v =>
    rw [hs] at h
    set vm1 : VertexManager :=
      { vm with vertices := ainsert vm.vertices s (v.add_next d) } with hvm1
    have hlook1 : ∀ i, alookup vm1.vertices i =
        if s = i then some (v.add_next d) else alookup vm.vertices i := by
      intro i
      simp [hvm1, alookup_ainsert]
    have hE1 : EdgeClosed vm1 := by
      intro p hp x hx
      simp only [hvm1] at hp
      rcases mem_ainsert hp with h' | h'
      · exact hE _ h' x hx
      · subst h'
        simp only [Vertex.add_next, List.mem_append, List.mem_singleton] at hx
        rcases hx with hx | hx
        · exact hE _ (alookup_some_mem hs) x hx
        · subst hx
          exact hd
    have hF1 : FreshInv vm1 := by
      constructor
      · intro p hp
        simp only [hvm1] at hp
        rcases mem_ainsert hp with h' | h'
        · exact hF.1 _ h'
        · subst h'
          exact hF.1 (s, v) (alookup_some_mem hs)
      · intro p hp
        exact hF.2 _ hp
    unfold VertexManager.propagate_from at h
    have hget : vm1.get_types s = tkeys v.types := by
      unfold VertexManager.get_types
      rw [hlook1 s]
      simp [Vertex.add_next]
    by_cases hts : (vm1.get_types s).isEmpty
    · simp [hts] at h
      subst h
      refine ⟨?_, hE1, hF1⟩
      have hkeysnil : tkeys v.types = [] := by
        rw [hget] at hts
        exact List.isEmpty_iff.1 hts
      intro u x wu wx hu hx hax t ht
      rw [hlook1 u] at hu
      rw [hlook1 x] at hax
      by_cases hsu : s = u
      · simp [hsu] at hu
        rw [← hu] at ht
        simp only [Vertex.add_next] at ht
        rw [show (Vertex.mk v.types (v.next ++ [d]) v.boxes).types = v.types
          from rfl] at ht
        rw [hkeysnil] at ht
        simp at ht
      · simp [hsu] at hu
        by_cases hsx : s = x
        · simp [hsx] at hax
          rw [← hax]
          simp only [Vertex.add_next]
          exact hInv u s wu v hu (hsx ▸ hx) hs t ht
        · simp [hsx] at hax
          exact hInv u x wu wx hu hx hax t ht
    · simp [hts] at h
      refine goodVM_propagate h ?_ hE1 hF1
      rw [hget]
      intro u x wu wx hu hx hax t ht
      rw [hlook1 u] at hu
      rw [hlook1 x] at hax
      by_cases hsu : s = u
      · simp [hsu] at hu
        subst hu
        simp only [Vertex.add_next, List.mem_append, List.mem_singleton] at hx
        have htv : t ∈ tkeys v.types := ht
        rcases hx with hx | hx
        · by_cases hsx : s = x
          · simp [hsx] at hax
            subst hax
            exact Or.inl ht
          · simp [hsx] at hax
            exact Or.inl (hInv s x v wx hs hx hax t htv)
        · subst hx
          exact Or.inr ⟨(s, x, tkeys v.types), List.mem_singleton_self _, rfl, htv⟩
      · simp [hsu] at hu
        by_cases hsx : s = x
        · simp [hsx] at hax
          subst hax
          exact Or.inl (hInv u s wu v hu (hsx ▸ hx) hs t ht)
        · simp [hsx] at hax
          exact Or.inl (hInv u x wu wx hu hx hax t ht)

theorem propagate_from_pres {vm vm' : VertexManager} {fuel s d : Nat}
    (h : vm.propagate_from fuel s d = some vm') :
    vtxTableLE vm.vertices vm'.vertices ∧ vm'.sources = vm.sources ∧
      vm'.next_vertex_id = vm.next_vertex_id := by
  unfold VertexManager.propagate_from at h
  by_cases hts : (vm.get_types s).isEmpty
  · simp [hts] at h
    subst h
    exact ⟨vtxTableLE_refl _, rfl, rfl⟩
  · simp [hts] at h
    exact propagate_work_pres fuel _ vm vm' h

theorem add_edge_pres {vm vm' : VertexManager} {fuel s d : Nat}
    (h : vm.add_edge fuel s d = some vm') :
    vm'.sources = vm.sources ∧ vm'.next_vertex_id = vm.next_vertex_id := by
  unfold VertexManager.add_edge at h
  cases hs : alookup vm.vertices s with
  | none =>
    rw [hs] at h
    rcases propagate_from_pres h with ⟨_, h2, h3⟩
    exact ⟨h2, h3⟩
  | some v =>
    rw [hs] at h
    rcases propagate_from_pres h with ⟨_, h2, h3⟩
    exact ⟨h2, h3⟩

theorem add_edge_vertex_keys {vm vm' : VertexManager} {fuel s d : Nat}
    (h : vm.add_edge fuel s d = some vm') {i : Nat} {w : Vertex}
    (hw : alookup vm.vertices i = some w) :
    ∃ w', alookup vm'.vertices i = some w' ∧ ∀ t ∈ tkeys w.types, t ∈ tkeys w'.types := by
  unfold VertexManager.add_edge at h
  cases hs : alookup vm.vertices s with
  | none =>
    rw [hs] at h
    rcases propagate_from_pres h with ⟨hLE, _, _⟩
    rcases vtxTableLE_alookup_some hLE hw with ⟨w', h1, _, _, h4⟩
    exact ⟨w', h1, h4⟩
  | some v =>
    rw [hs] at h
    rcases propagate_from_pres h with ⟨hLE, _, _⟩
    by_cases hsi : s = i
    · subst hsi
      rw [hw] at hs
      cases hs
      have hmid : alookup (ainsert vm.vertices s (w.add_next d)) s =
          some (w.add_next d) := alookup_ainsert_self _ _ _
      rcases vtxTableLE_alookup_some hLE hmid with ⟨w', h1, _, _, h4⟩
      refine ⟨w', h1, fun t ht => h4 t ?_⟩
      simpa [Vertex.add_next] using ht
    · have hmid : alookup (ainsert vm.vertices s (v.add_next d)) i =
          some w := by
        rw [alookup_ainsert_ne _ _ _ _ hsi]
        exact hw
      rcases vtxTableLE_alookup_some hLE hmid with ⟨w', h1, _, _, h4⟩
      exact ⟨w', h1, h4⟩

theorem add_edge_vertex_none {vm vm' : VertexManager} {fuel s d : Nat}
    (h : vm.add_edge fuel s d = some vm') {i : Nat}
    (hw : alookup vm.vertices i = none) : alookup vm'.vertices i = none := by
  unfold VertexManager.add_edge at h
  cases hs : alookup vm.vertices s with
  | none =>
    rw [hs] at h
    rcases propagate_from_pres h with ⟨hLE, _, _⟩
    exact vtxTableLE_alookup_none hLE hw
  | some v =>
    rw [hs] at h
    rcases propagate_from_pres h with ⟨hLE, _, _⟩
    have hsi : ¬(s = i) := by
      intro he
      subst he
      rw [hw] at hs
      cases hs
    have hmid : alookup (ainsert vm.vertices s (v.add_next d)) i = none := by
      rw [alookup_ainsert_ne _ _ _ _ hsi]
      exact hw
    exact vtxTableLE_alookup_none hLE hmid

theorem applyVOp_fresh {vm vm' : VertexManager} {fuel : Nat} {op : VOp}
    (hF : FreshInv vm) (h : applyVOp fuel vm op = some vm') : FreshInv vm' := by
  cases op with
  | new_vertex =>
    simp only [applyVOp, Option.some_inj] at h
    subst h
    constructor
    · intro p hp
      simp only [VertexManager.new_vertex] at hp ⊢
      rcases mem_ainsert hp with h' | h'
      · have := hF.1 _ h'
        omega
      · subst h'
        simp
    · intro p hp
      simp only [VertexManager.new_vertex] at hp ⊢
      have := hF.2 _ hp
      omega
  | new_source ty =>
    simp only [applyVOp, Option.some_inj] at h
    subst h
    constructor
    · intro p hp
      simp only [VertexManager.new_source] at hp ⊢
      have := hF.1 _ hp
      omega
    · intro p hp
      simp only [VertexManager.new_source] at hp ⊢
      rcases mem_ainsert hp with h' | h'
      · have := hF.2 _ h'
        omega
      · subst h'
        simp
  | add_edge s d =>
    simp only [applyVOp] at h
    rcases add_edge_pres h with ⟨hsrc, hid⟩
    unfold VertexManager.add_edge at h
    cases hs : alookup vm.vertices s with
    | none =>
      rw [hs] at h
      rcases propagate_from_pres h with ⟨hLE, _, hid'⟩
      constructor
      · intro p hp
        rcases vtxTableLE_mem_right hLE hp with ⟨q, hq, hkeq, _⟩
        rw [hid', hkeq]
        exact hF.1 _ hq
      · intro p hp
        rw [hid']
        rcases propagate_from_pres h with ⟨_, hsrc', _⟩
        rw [hsrc'] at hp
        exact hF.2 _ hp
    | some v =>
      rw [hs] at h
      rcases propagate_from_pres h with ⟨hLE, hsrc', hid'⟩
      constructor
      · intro p hp
        rcases vtxTableLE_mem_right hLE hp with ⟨q, hq, hkeq, _⟩
        rw [hid', hkeq]
        rcases mem_ainsert hq with h' | h'
        · exact hF.1 _ h'
        · rw [h']
          exact hF.1 (s, v) (alookup_some_mem hs)
      · intro p hp
        rw [hid']
        rw [hsrc'] at hp
        exact hF.2 _ hp

theorem runVOps_good (ops : List VOp) :
    ∀ (fuel : Nat) (vm vm' : VertexManager),
      validVOps vm.next_vertex_id ops = true → runVOps fuel ops vm = some vm' →
      GoodVM vm → GoodVM vm' := by
  induction ops with
  | nil =>
    intro fuel vm vm' hv h hg
    simp [runVOps] at h
    subst h
    exact hg
  | cons op rest ih =>
    intro fuel vm vm' hv h hg
    cases op with
    | new_vertex =>
      simp only [runVOps, applyVOp] at h
      refine ih fuel _ vm' ?_ h (goodVM_new_vertex hg)
      simpa [VertexManager.new_vertex, validVOps] using hv
    | new_source ty =>
      simp only [runVOps, applyVOp] at h
      refine ih fuel _ vm' ?_ h (goodVM_new_source ty hg)
      simpa [VertexManager.new_source, validVOps] using hv
    | add_edge s d =>
      simp only [validVOps, Bool.and_eq_true, decide_eq_true_eq] at hv
      simp only [runVOps, applyVOp] at h
      cases hae : vm.add_edge fuel s d with
      | none => rw [hae] at h; cases h
      | some vmMid =>
        rw [hae] at h
        refine ih fuel vmMid vm' ?_ h (goodVM_add_edge hv.1 hae hg)
        rw [(add_edge_pres hae).2]
        exact hv.2

/-- The empty manager satisfies the combined invariant. -/
theorem goodVM_new : GoodVM VertexManager.new := by
  refine ⟨?_, ?_, ?_, ?_⟩
  · intro u x wu wx hu
    simp [VertexManager.new, alookup] at hu
  · intro p hp
    simp [VertexManager.new] at hp
  · intro p hp
    simp [VertexManager.new] at hp
  · intro p hp
    simp [VertexManager.new] at hp

theorem applyVOp_source_step {vm vm' : VertexManager} {fuel : Nat} {op : VOp}
    {k : Nat} {t : Ty} (hF : FreshInv vm)
    (hs : alookup vm.sources k = some t) (hv : alookup vm.vertices k = none)
    (h : applyVOp fuel vm op = some vm') :
    alookup vm'.sources k = some t ∧ alookup vm'.vertices k = none := by
  have hklt : k < vm.next_vertex_id := hF.2 _ (alookup_some_mem hs)
  cases op with
  | new_vertex =>
    simp only [applyVOp, Option.some_inj] at h
    subst h
    simp only [VertexManager.new_vertex]
    constructor
    · exact hs
    · rw [alookup_ainsert_ne _ _ _ _ (by omega)]
      exact hv
  | new_source ty =>
    simp only [applyVOp, Option.some_inj] at h
    subst h
    simp only [VertexManager.new_source]
    constructor
    · rw [alookup_ainsert_ne _ _ _ _ (by omega)]
      exact hs
    · exact hv
  | add_edge s d =>
    simp only [applyVOp] at h
    rcases add_edge_pres h with ⟨hsrc, _⟩
    rw [hsrc]
    exact ⟨hs, add_edge_vertex_none h hv⟩

theorem runVOps_source (ops : List VOp) :
    ∀ (fuel : Nat) (vm vm' : VertexManager) (k : Nat) (t : Ty),
      FreshInv vm → alookup vm.sources k = some t →
      alookup vm.vertices k = none → runVOps fuel ops vm = some vm' →
      alookup vm'.sources k = some t ∧ alookup vm'.vertices k = none := by
  induction ops with
  | nil =>
    intro fuel vm vm' k t hF hs hv h
    simp [runVOps] at h
    subst h
    exact ⟨hs, hv⟩
  | cons op rest ih =>
    intro fuel vm vm' k t hF hs hv h
    simp only [runVOps] at h
    cases hop : applyVOp fuel vm op with
    | none => rw [hop] at h; cases h
    | some vmMid =>
      rw [hop] at h
      rcases applyVOp_source_step hF hs hv hop with ⟨hs', hv'⟩
      exact ih fuel vmMid vm' k t (applyVOp_fresh hF hop) hs' hv' h

/-! ## Claim theorems -/

/-- The op sequence of the C1 counterexample: a String source, a vertex
fed from it, and an Integer source receiving an edge from the vertex. -/
def c1CexOps : List VOp :=
  [.new_source Ty.str, .new_vertex, .add_edge 0 1, .new_source Ty.int,
    .add_edge 1 2]

/-- The state the C1 counterexample run ends in. -/
def c1CexVM : VertexManager :=
  (runVOps 10 c1CexOps VertexManager.new).getD VertexManager.new

/-- C1 counterexample: the run completes (propagation finishes, there are
no boxes, so the state is quiescent), the edge `1 → 2` is committed by
`add_edge` (it is recorded in vertex 1's `next` list), `String` is in the
type set of vertex 1, yet `String` is not in the type set of node 2 —
because node 2 is a Source and `propagate_types` skips Source targets.  So
the claim as stated is false for edges whose destination is a Source. -/
theorem c1_counterexample :
    runVOps 10 c1CexOps VertexManager.new = some c1CexVM ∧
      (c1CexVM.get_vertex 1).map Vertex.next = some [2] ∧
      Ty.str ∈ c1CexVM.get_types 1 ∧ ¬(Ty.str ∈ c1CexVM.get_types 2) := by
  decide

/-- C1 (amended): for every run of graph operations from the empty manager
in which every committed edge points at an already-allocated id, if
propagation ran to completion (`runVOps` returned a state), then along
every committed edge `u → x` whose destination is a mutable Vertex, every
type in the type set of `u` appears in the type set of `x` — in particular
along chains of edges, at quiescence. -/
theorem c1_edge_subset_at_quiescence (fuel : Nat) (ops : List VOp)
    (vm' : VertexManager) (hvalid : validVOps 0 ops = true)
    (hrun : runVOps fuel ops VertexManager.new = some vm') : InvC1 vm' :=
  (runVOps_good ops fuel VertexManager.new vm' hvalid hrun goodVM_new).1

/-- The op sequence of the C1 witness: a String source feeding a chain of
two vertices (the `test_chain_propagation` scenario). -/
def c1WitOps : List VOp :=
  [.new_source Ty.str, .new_vertex, .new_vertex, .add_edge 0 1, .add_edge 1 2]

/-- The state the C1 witness run ends in. -/
def c1WitVM : VertexManager :=
  (runVOps 10 c1WitOps VertexManager.new).getD VertexManager.new

/-- Witness for C1: the amended theorem applied to a concrete chain run. -/
theorem c1_edge_subset_witness : InvC1 c1WitVM ∧ Ty.str ∈ c1WitVM.get_types 2 :=
  ⟨c1_edge_subset_at_quiescence 10 c1WitOps c1WitVM (by decide) (by decide),
    by decide⟩

/-- C3: a Source's type is fixed forever.  First part: in any reachable
state (fresh ids, the id absent from the vertex table) holding a source
`k` of fixed type `t`, after any further completed operation sequence the
source still has exactly the type `t` and `get_types` returns the
singleton `[t]`.  Second part: `propagate_types` aimed at a non-vertex
target (in particular a Source) returns the state unchanged. -/
theorem c3_source_fixed_type :
    (∀ (fuel : Nat) (ops : List VOp) (vm vm' : VertexManager) (k : Nat) (t : Ty),
      FreshInv vm → alookup vm.sources k = some t →
      alookup vm.vertices k = none → runVOps fuel ops vm = some vm' →
      alookup vm'.sources k = some t ∧ vm'.get_types k = [t]) ∧
    (∀ (vm : VertexManager) (fuel s d : Nat) (ts : List Ty),
      alookup vm.vertices d = none →
      vm.propagate_types (fuel + 1) s d ts = some vm) := by
  constructor
  · intro fuel ops vm vm' k t hF hs hv h
    rcases runVOps_source ops fuel vm vm' k t hF hs hv h with ⟨hs', hv'⟩
    refine ⟨hs', ?_⟩
    unfold VertexManager.get_types
    rw [hv', hs']
  · intro vm fuel s d ts hd
    unfold VertexManager.propagate_types
    simp [VertexManager.propagate_work, hd]

/-- The state of the C3 witness: a String source and a vertex fed from it. -/
def c3WitVM : VertexManager :=
  (runVOps 10 [.new_source Ty.str, .new_vertex] VertexManager.new).getD
    VertexManager.new

/-- Witness for C3: after further committing an edge out of the source and
an edge into the source, the source still has exactly its fixed type, and
a direct `propagate_types` at the source leaves the state unchanged. -/
theorem c3_source_fixed_type_witness :
    (∀ vm', runVOps 10 [.add_edge 0 1, .add_edge 1 0] c3WitVM = some vm' →
      alookup vm'.sources 0 = some Ty.str ∧ vm'.get_types 0 = [Ty.str]) ∧
      c3WitVM.propagate_types 5 1 0 [Ty.int] = some c3WitVM :=
  ⟨fun vm' h => c3_source_fixed_type.1 10 [.add_edge 0 1, .add_edge 1 0]
      c3WitVM vm' 0 Ty.str (by decide) (by decide) (by decide) h,
    c3_source_fixed_type.2 c3WitVM 4 1 0 [Ty.int] (by decide)⟩

/-- C7: `add_edge` whose `src` id is neither a vertex nor a source is a
complete no-op — the call returns the state unchanged (no `next` entry, no
type change, vertex and source tables untouched). -/
theorem c7_add_edge_unknown_src_noop (vm : VertexManager) (fuel src dst : Nat)
    (h1 : alookup vm.vertices src = none) (h2 : alookup vm.sources src = none) :
    vm.add_edge fuel src dst = some vm := by
  have hget : vm.get_types src = [] := by
    unfold VertexManager.get_types
    rw [h1, h2]
  unfold VertexManager.add_edge VertexManager.propagate_from
  rw [h1]
  simp [hget]

/-- Witness for C7: in a state holding one vertex and one source, an
`add_edge` from the unallocated id 5 returns the state unchanged. -/
theorem c7_add_edge_unknown_src_noop_witness :
    ((runVOps 10 [.new_vertex, .new_source Ty.str] VertexManager.new).getD
        VertexManager.new).add_edge 3 5 0 =
      some ((runVOps 10 [.new_vertex, .new_source Ty.str]
        VertexManager.new).getD VertexManager.new) :=
  c7_add_edge_unknown_src_noop _ 3 5 0 (by decide) (by decide)

/-! ## ChangeSet and BoxManager (`src/rust/src/env/box_manager.rs`) -/

/-- Modelled from the spec: `ChangeSet` of the missing `graph` module, a
deferred bag of `(src, dst)` edge additions (§3). -/
structure ChangeSet where
  edges : List (Nat × Nat)
deriving DecidableEq

/-- `ChangeSet::new`. -/
def ChangeSet.new : ChangeSet := ⟨[]⟩

/-- Modelled from the spec: `ChangeSet::add_edge` defers one edge. -/
def ChangeSet.add_edge (c : ChangeSet) (src dst : Nat) : ChangeSet :=
  ⟨c.edges ++ [(src, dst)]⟩

/-- Removal from an association list, the embedding of `HashMap::remove`. -/
def aremove {κ α : Type} [DecidableEq κ] : List (κ × α) → κ → List (κ × α)
  | [], _ => []
  | (k, v) :: rest, key => if k = key then rest else (k, v) :: aremove rest key

theorem alookup_aremove_ne {κ α : Type} [DecidableEq κ]
    (l : List (κ × α)) (k k' : κ) (hne : k ≠ k') :
    alookup (aremove l k) k' = alookup l k' := by
  induction l with
  | nil => simp [aremove]
  | cons hd tl ih =>
    obtain ⟨k1, v1⟩ := hd
    by_cases h1 : k1 = k
    · subst h1
      simp [aremove, alookup, hne]
    · by_cases h2 : k1 = k' <;>
        simp [aremove, alookup, h1, h2, ih, Ne.symm hne]

/-- `BoxManager`, generic over the boxed payload (`Box<dyn BoxTrait>` in
the code): the box table, the FIFO run queue and its dedup set (the
`HashSet` is embedded as a duplicate-free list), and the id counter. -/
structure BoxManager (β : Type) where
  boxes : List (Nat × β)
  run_queue : List Nat
  run_queue_set : List Nat
  next_box_id : Nat

/-- `BoxManager::new`. -/
def BoxManager.new {β : Type} : BoxManager β := ⟨[], [], [], 0⟩

/-- `BoxManager::register`: store a box under a fresh id. -/
def BoxManager.register {β : Type} (bm : BoxManager β) (b : β) :
    BoxManager β × Nat :=
  let id := bm.next_box_id
  ({ bm with boxes := ainsert bm.boxes id b, next_box_id := id + 1 }, id)

/-- `BoxManager::add_run`: append to the FIFO only when the id is not in
the dedup set. -/
def BoxManager.add_run {β : Type} (bm : BoxManager β) (box_id : Nat) :
    BoxManager β :=
  if box_id ∈ bm.run_queue_set then bm
  else
    { bm with
        run_queue := bm.run_queue ++ [box_id]
        run_queue_set := bm.run_queue_set ++ [box_id] }

/-- `BoxManager::pop_run`: dequeue from the front, remove from the dedup
set; `none` when the queue is empty. -/
def BoxManager.pop_run {β : Type} (bm : BoxManager β) :
    Option Nat × BoxManager β :=
  match bm.run_queue with
  | [] => (none, bm)
  | q :: rest =>
    (some q,
      { bm with
          run_queue := rest
          run_queue_set := bm.run_queue_set.erase q })

/-- `BoxManager::queue_is_empty`. -/
def BoxManager.queue_is_empty {β : Type} (bm : BoxManager β) : Bool :=
  bm.run_queue.isEmpty

/-- `BoxManager::execute_box`: temporarily remove the box, run the executor
on it with a fresh `ChangeSet`, put the box back, and return the changes;
`none` without any state change when the box does not exist. -/
def BoxManager.execute_box {β : Type} (bm : BoxManager β) (box_id : Nat)
    (executor : β → ChangeSet → β × ChangeSet) :
    Option ChangeSet × BoxManager β :=
  match alookup bm.boxes box_id with
  | none => (none, bm)
  | some b =>
    let bm1 := { bm with boxes := aremove bm.boxes box_id }
    let r := executor b ChangeSet.new
    (some r.2, { bm1 with boxes := ainsert bm1.boxes box_id r.1 })

/-- The scheduler-facing operations of `BoxManager`. -/
inductive SOp where
  | add_run (id : Nat)
  | pop_run
deriving DecidableEq

/-- Apply one scheduler operation (the popped id, if any, is discarded). -/
def applySOp {β : Type} (bm : BoxManager β) : SOp → BoxManager β
  | .add_run id => bm.add_run id
  | .pop_run => (bm.pop_run).2

/-- Run a sequence of scheduler operations. -/
def runSOps {β : Type} (ops : List SOp) (bm : BoxManager β) : BoxManager β :=
  ops.foldl applySOp bm

/-- Drain the queue by repeated `pop_run`, collecting the popped ids. -/
def popAllGo {β : Type} : Nat → BoxManager β → List Nat
  | 0, _ => []
  | n + 1, bm =>
    match bm.pop_run with
    | (some q, bm') => q :: popAllGo n bm'
    | (none, _) => []

/-- Drain the whole queue. -/
def popAll {β : Type} (bm : BoxManager β) : List Nat :=
  popAllGo bm.run_queue.length bm

/-- The dedup set mirrors the queue exactly. -/
def SchedInv {β : Type} (bm : BoxManager β) : Prop :=
  bm.run_queue_set = bm.run_queue ∧ bm.run_queue.Nodup

theorem schedInv_add_run {β : Type} {bm : BoxManager β} (h : SchedInv bm)
    (id : Nat) : SchedInv (bm.add_run id) := by
  obtain ⟨hset, hnd⟩ := h
  unfold BoxManager.add_run
  by_cases hmem : id ∈ bm.run_queue_set
  · simp only [hmem, if_true]
    exact ⟨hset, hnd⟩
  · simp only [hmem, if_false]
    constructor
    · show bm.run_queue_set ++ [id] = bm.run_queue ++ [id]
      rw [hset]
    · show (bm.run_queue ++ [id]).Nodup
      rw [hset] at hmem
      simp [List.nodup_append, hnd, hmem]

theorem schedInv_pop_run {β : Type} {bm : BoxManager β} (h : SchedInv bm) :
    SchedInv (bm.pop_run).2 := by
  obtain ⟨hset, hnd⟩ := h
  cases hq : bm.run_queue with
  | nil =>
    have hpop : bm.pop_run = (none, bm) := by
      unfold BoxManager.pop_run
      rw [hq]
    rw [hpop]
    exact ⟨hset, hnd⟩
  | cons q rest =>
    unfold BoxManager.pop_run
    rw [hq]
    rw [hq] at hset hnd
    constructor
    · show bm.run_queue_set.erase q = rest
      rw [hset]
      exact List.erase_cons_head q rest
    · exact hnd.of_cons

theorem schedInv_runSOps {β : Type} (ops : List SOp) :
    ∀ bm : BoxManager β, SchedInv bm → SchedInv (runSOps ops bm) := by
  induction ops with
  | nil => intro bm h; exact h
  | cons op rest ih =>
    intro bm h
    cases op with
    | add_run id => exact ih _ (schedInv_add_run h id)
    | pop_run => exact ih _ (schedInv_pop_run h)

theorem popAllGo_eq {β : Type} (n : Nat) :
    ∀ bm : BoxManager β, bm.run_queue.length ≤ n → popAllGo n bm = bm.run_queue := by
  induction n with
  | zero =>
    intro bm hle
    have : bm.run_queue = [] := List.eq_nil_of_length_eq_zero (by omega)
    simp [popAllGo, this]
  | succ n ih =>
    intro bm hle
    cases hq : bm.run_queue with
    | nil =>
      have hpop : bm.pop_run = (none, bm) := by
        unfold BoxManager.pop_run
        rw [hq]
      simp [popAllGo, hpop, hq]
    | cons q rest =>
      have hpop : bm.pop_run = (some q,
          { bm with run_queue := rest
                    run_queue_set := bm.run_queue_set.erase q }) := by
        unfold BoxManager.pop_run
        rw [hq]
      have hlen : ({ bm with run_queue := rest, run_queue_set := bm.run_queue_set.erase q } : BoxManager β).run_queue.length ≤ n := by
        show rest.length ≤ n
        rw [hq] at hle
        simp at hle
        omega
      unfold popAllGo
      simp [hpop, ih _ hlen]

/-- C4: from the empty scheduler, after any sequence of `add_run` /
`pop_run` operations, the run queue never holds the same `BoxId` twice
(and the dedup set mirrors the queue exactly); draining the queue by
repeated `pop_run` yields exactly the queue, front first — ids come out in
the order they were first enqueued — and `pop_run` on an empty queue
returns `none`. -/
theorem c4_run_queue_dedup_fifo (β : Type) (ops : List SOp) :
    (runSOps ops (BoxManager.new (β := β))).run_queue.Nodup ∧
    (runSOps ops (BoxManager.new (β := β))).run_queue_set =
      (runSOps ops (BoxManager.new (β := β))).run_queue ∧
    popAll (runSOps ops (BoxManager.new (β := β))) =
      (runSOps ops (BoxManager.new (β := β))).run_queue ∧
    ((runSOps ops (BoxManager.new (β := β))).run_queue = [] →
      ((runSOps ops (BoxManager.new (β := β))).pop_run).1 = none) := by
  have hinv : SchedInv (runSOps ops (BoxManager.new (β := β))) :=
    schedInv_runSOps ops _ ⟨rfl, List.nodup_nil⟩
  refine ⟨hinv.2, hinv.1, popAllGo_eq _ _ (le_refl _), ?_⟩
  intro hq
  unfold BoxManager.pop_run
  rw [hq]

/-- Witness for C4: a concrete run with a duplicate enqueue and a pop. -/
theorem c4_run_queue_dedup_fifo_witness :
    (runSOps [.add_run 0, .add_run 1, .add_run 0, .pop_run]
        (BoxManager.new (β := Nat))).run_queue.Nodup ∧
      (runSOps [.add_run 0, .add_run 1, .add_run 0, .pop_run]
        (BoxManager.new (β := Nat))).run_queue = [1] := by
  constructor
  · exact (c4_run_queue_dedup_fifo Nat
      [.add_run 0, .add_run 1, .add_run 0, .pop_run]).1
  · decide

/-- C10: `execute_box` with an unregistered id returns `none` and leaves
the whole manager untouched; with a registered id the box is detached, the
executor runs on it alone, and the result is re-inserted under the same id,
so the set of registered ids, the run queue and the dedup set are the same
after every call. -/
theorem c10_execute_box_preserves_ids (β : Type) (bm : BoxManager β)
    (box_id : Nat) (executor : β → ChangeSet → β × ChangeSet) :
    (alookup bm.boxes box_id = none →
      bm.execute_box box_id executor = (none, bm)) ∧
    (∀ j, (alookup (bm.execute_box box_id executor).2.boxes j).isSome =
      (alookup bm.boxes j).isSome) ∧
    (bm.execute_box box_id executor).2.run_queue = bm.run_queue ∧
    (bm.execute_box box_id executor).2.run_queue_set = bm.run_queue_set ∧
    (bm.execute_box box_id executor).2.next_box_id = bm.next_box_id := by
  unfold BoxManager.execute_box
  cases hb : alookup bm.boxes box_id with
  | none =>
    refine ⟨fun _ => rfl, ?_, rfl, rfl, rfl⟩
    intro j
    rfl
  | some b =>
    refine ⟨?_, ?_, rfl, rfl, rfl⟩
    · intro h
      cases h
    intro j
    by_cases hj : box_id = j
    · subst hj
      simp [alookup_ainsert_self, hb]
    · simp [alookup_ainsert_ne _ _ _ _ hj, alookup_aremove_ne _ _ _ hj]

/-- Witness for C10: a concrete manager with one box; executing a missing
id is a no-op, executing the present id keeps the id registered. -/
theorem c10_execute_box_preserves_ids_witness :
    ((BoxManager.new.register 7).1.execute_box 3
        (fun b c => (b + 1, c)) = (none, (BoxManager.new.register 7).1)) ∧
      (alookup ((BoxManager.new.register 7).1.execute_box 0
        (fun b c => (b + 1, c))).2.boxes 0).isSome = true := by
  constructor
  · exact (c10_execute_box_preserves_ids Nat (BoxManager.new.register 7).1 3
      (fun b c => (b + 1, c))).1 (by decide)
  · rw [(c10_execute_box_preserves_ids Nat (BoxManager.new.register 7).1 0
      (fun b c => (b + 1, c))).2.1 0]
    decide

/-! ## Registry claims (C5, C6) -/

/-- C5: `register` has overwrite semantics — after two registrations under
the same `(recv, name)` key the second return type wins — and registering
the exact same triple twice yields the same result for every `resolve`
query as registering it once. -/
theorem c5_register_overwrite :
    (∀ (r : Registry) (recv : Ty) (name : String) (t1 t2 : Ty),
      ((r.register recv name t1).register recv name t2).resolve recv name =
        some ⟨t2⟩) ∧
    (∀ (r : Registry) (recv : Ty) (name : String) (t : Ty)
      (recv' : Ty) (name' : String),
      ((r.register recv name t).register recv name t).resolve recv' name' =
        (r.register recv name t).resolve recv' name') := by
  constructor
  · intro r recv name t1 t2
    unfold Registry.register Registry.resolve
    exact alookup_ainsert_self _ _ _
  · intro r recv name t recv' name'
    unfold Registry.register Registry.resolve
    by_cases hk : (recv, name) = (recv', name')
    · rw [← hk]
      rw [alookup_ainsert_self, alookup_ainsert_self]
    · rw [alookup_ainsert_ne _ _ _ _ hk, alookup_ainsert_ne _ _ _ _ hk]

/-- C6 counterexample: the registry's `resolve` does no special-casing of
`Bot` — it is a plain structural lookup — and `register` accepts any
receiver type (the spec exposes `register_builtin_method` with an
arbitrary `recv_ty`).  The registry state reached by registering a method
under the `Bot` receiver therefore resolves `Bot`, refuting "resolve(Bot,
m) is None for every reachable registry state". -/
theorem c6_counterexample :
    (Registry.empty.register Ty.bot ("m") Ty.nil).resolve Ty.bot ("m") =
      some ⟨Ty.nil⟩ := by
  decide

/-! ## Scopes, type errors, call boxes, global environment

`env/mod.rs` (`GlobalEnv`, `ScopeManager`) and the `MethodCallBox` of the
`graph` module are not among the available sources; they are modelled from
§3, §4.4 and §4.7 of the spec.  Their callers (`attr_methods.rs`,
`install.rs`, the tests) are available and fix the interfaces used here. -/

/-- Modelled from the spec: a lexical scope frame (§3): a class scope with
its instance-variable binding table, or a method scope. -/
inductive Scope where
  | classScope (class_name : String) (instance_vars : List (String × Nat))
  | methodScope (method_name : String)
deriving DecidableEq

/-- Modelled from the spec: `ScopeManager::current_class_name` — search the
stack top-down for the nearest ClassScope (§4.4). -/
def currentClassName : List Scope → Option String
  | [] => none
  | .classScope n _ :: _ => some n
  | .methodScope _ :: rest => currentClassName rest

/-- Modelled from the spec: `ScopeManager::lookup_instance_var` — look the
name up in the nearest enclosing ClassScope (§4.4). -/
def lookupInstanceVar : List Scope → String → Option Nat
  | [], _ => none
  | .classScope _ ivars :: _, name => alookup ivars name
  | .methodScope _ :: rest, name => lookupInstanceVar rest name

/-- Modelled from the spec: `ScopeManager::set_instance_var_in_class` —
bind (overwriting) on the nearest enclosing ClassScope (§4.4). -/
def setInstanceVarInClass : List Scope → String → Nat → List Scope
  | [], _, _ => []
  | .classScope n ivars :: rest, name, vtx =>
    .classScope n (ainsert ivars name vtx) :: rest
  | .methodScope n :: rest, name, vtx =>
    .methodScope n :: setInstanceVarInClass rest name vtx

/-- `TypeError` (`src/rust/src/env/type_error.rs`); the opaque
`SourceLocation` is embedded as a `Nat` token. -/
structure TypeError where
  receiver_type : Ty
  method_name : String
  vertex_id : Nat
  location : Option Nat
deriving DecidableEq

/-- Modelled from the spec: `MethodCallBox` of the missing `graph` module
(§3): one reactive cell per call site, with its receiver vertex, method
name, return vertex, optional location, and the set of receiver types
already processed. -/
structure MethodCallBox where
  id : Nat
  receiver : Nat
  method_name : String
  return_vertex : Nat
  location : Option Nat
  seen_types : List Ty
deriving DecidableEq

/-- Modelled from the spec: the ownership root `GlobalEnv` (`env/mod.rs` is
not among the available sources).  It owns the `VertexManager`, the
`MethodRegistry`, the scope stack, the call boxes, the error list, and the
box id counter, matching the fields its callers use (`genv.scope_manager`,
`genv.type_errors`, `genv.boxes`, `genv.next_box_id`). -/
structure GlobalEnv where
  vm : VertexManager
  registry : Registry
  scope_manager : List Scope
  boxes : List (Nat × MethodCallBox)
  type_errors : List TypeError
  next_box_id : Nat
deriving DecidableEq

/-- `GlobalEnv::new`. -/
def GlobalEnv.new : GlobalEnv := ⟨VertexManager.new, Registry.empty, [], [], [], 0⟩

/-- `GlobalEnv::register_builtin_method`: delegate to the registry. -/
def GlobalEnv.register_builtin_method (g : GlobalEnv) (recv_ty : Ty)
    (method_name : String) (ret_ty : Ty) : GlobalEnv :=
  { g with registry := g.registry.register recv_ty method_name ret_ty }

/-- `GlobalEnv::get_vertex`: delegate to the vertex manager. -/
def GlobalEnv.get_vertex (g : GlobalEnv) (id : Nat) : Option Vertex :=
  g.vm.get_vertex id

/-- Modelled from the spec: one step of a `MethodCallBox` firing (§4.7),
processing the receiver's new types in order: `Bot` is skipped; a registry
hit commits an edge from a fresh source of the return type to the box's
return vertex through the `VertexManager` (so propagation runs); a miss
records a `TypeError`. -/
def fireTypes (fuel : Nat) (b : MethodCallBox) :
    List Ty → GlobalEnv → Option GlobalEnv
  | [], g => some g
  | t :: rest, g =>
    if t = Ty.bot then fireTypes fuel b rest g
    else
      match g.registry.resolve t b.method_name with
      | some info =>
        let r := g.vm.new_source info.return_type
        match r.1.add_edge fuel r.2 b.return_vertex with
        | some vm' => fireTypes fuel b rest { g with vm := vm' }
        | none => none
      | none =>
        fireTypes fuel b rest
          { g with type_errors := g.type_errors ++
              [⟨t, b.method_name, b.receiver, b.location⟩] }

/-- Modelled from the spec: a full `MethodCallBox` firing (§4.7): read the
receiver's current types, process those not yet seen in order, then add
all of them to `seen_types`.  A missing box id fires nothing. -/
def GlobalEnv.fire_box (g : GlobalEnv) (fuel : Nat) (id : Nat) :
    Option GlobalEnv :=
  match alookup g.boxes id with
  | none => some g
  | some b =>
    let recv_types := g.vm.get_types b.receiver
    let new_types := recv_types.filter (fun t => !(decide (t ∈ b.seen_types)))
    match fireTypes fuel b new_types g with
    | some g' =>
      let b' := { b with seen_types := b.seen_types ++ new_types }
      some { g' with boxes := ainsert g'.boxes id b' }
    | none => none

/-- The engine operations on the global environment: graph operations,
registry seeding, scope entry and exit, instance-variable binding, call
box installation (`install.rs` lines 119-152: allocate the return vertex,
allocate the box id, insert the box), and box firing. -/
inductive GOp where
  | new_vertex
  | new_source (ty : Ty)
  | add_edge (src dst : Nat)
  | register (recv : Ty) (name : String) (ret : Ty)
  | enter_class (name : String)
  | enter_method (name : String)
  | exit_scope
  | set_ivar (name : String) (vtx : Nat)
  | new_box (receiver : Nat) (method_name : String)
  | fire (id : Nat)

/-- Apply one engine operation. -/
def applyGOp (fuel : Nat) (g : GlobalEnv) : GOp → Option GlobalEnv
  | .new_vertex => some { g with vm := (g.vm.new_vertex).1 }
  | .new_source ty => some { g with vm := (g.vm.new_source ty).1 }
  | .add_edge src dst =>
    match g.vm.add_edge fuel src dst with
    | some vm' => some { g with vm := vm' }
    | none => none
  | .register recv name ret => some (g.register_builtin_method recv name ret)
  | .enter_class name =>
    some { g with scope_manager := .classScope name [] :: g.scope_manager }
  | .enter_method name =>
    some { g with scope_manager := .methodScope name :: g.scope_manager }
  | .exit_scope => some { g with scope_manager := g.scope_manager.tail }
  | .set_ivar name vtx =>
    some { g with scope_manager := setInstanceVarInClass g.scope_manager name vtx }
  | .new_box recv name =>
    let r := g.vm.new_vertex
    some { g with
        vm := r.1
        boxes := ainsert g.boxes g.next_box_id
          ⟨g.next_box_id, recv, name, r.2, none, []⟩
        next_box_id := g.next_box_id + 1 }
  | .fire id => g.fire_box fuel id

/-- Run a sequence of engine operations. -/
def runGOps (fuel : Nat) : List GOp → GlobalEnv → Option GlobalEnv
  | [], g => some g
  | op :: rest, g =>
    match applyGOp fuel g op with
    | some g' => runGOps fuel rest g'
    | none => none

/-- The type keys currently on vertex `i`. -/
def typeKeysAt (vm : VertexManager) (i : Nat) : List Ty :=
  match alookup vm.vertices i with
  | some w => tkeys w.types
  | none => []

theorem new_vertex_keeps {vm : VertexManager} (hF : FreshInv vm) {i : Nat}
    {w : Vertex} (hw : alookup vm.vertices i = some w) :
    alookup (vm.new_vertex).1.vertices i = some w := by
  have hi : i < vm.next_vertex_id := hF.1 _ (alookup_some_mem hw)
  simp only [VertexManager.new_vertex]
  rw [alookup_ainsert_ne _ _ _ _ (by omega)]
  exact hw

theorem fireTypes_vm (fuel : Nat) (b : MethodCallBox) :
    ∀ (ts : List Ty) (g g' : GlobalEnv), fireTypes fuel b ts g = some g' →
      FreshInv g.vm →
      FreshInv g'.vm ∧ ∀ i w, alookup g.vm.vertices i = some w →
        ∃ w', alookup g'.vm.vertices i = some w' ∧
          ∀ t ∈ tkeys w.types, t ∈ tkeys w'.types := by
  intro ts
  induction ts with
  | nil =>
    intro g g' h hF
    simp [fireTypes] at h
    subst h
    exact ⟨hF, fun i w hw => ⟨w, hw, fun _ ht => ht⟩⟩
  | cons t rest ih =>
    intro g g' h hF
    by_cases hbot : t = Ty.bot
    · simp only [fireTypes, hbot, if_pos rfl] at h
      exact ih g g' h hF
    · simp only [fireTypes, hbot, if_false] at h
      cases hres : g.registry.resolve t b.method_name with
      | some info =>
        simp only [hres] at h
        cases hae : (g.vm.new_source info.return_type).1.add_edge fuel
            (g.vm.new_source info.return_type).2 b.return_vertex with
        | none => simp only [hae] at h; cases h
        | some vm3 =>
          simp only [hae] at h
          have hF2 : FreshInv (g.vm.new_source info.return_type).1 :=
            applyVOp_fresh hF
              (show applyVOp 0 g.vm (VOp.new_source info.return_type) =
                some (g.vm.new_source info.return_type).1 from rfl)
          have hF3 : FreshInv vm3 :=
            applyVOp_fresh hF2
              (show applyVOp fuel (g.vm.new_source info.return_type).1
                (VOp.add_edge (g.vm.new_source info.return_type).2
                  b.return_vertex) = some vm3 from hae)
          rcases ih _ g' h hF3 with ⟨hF', htrans⟩
          refine ⟨hF', fun i w hw => ?_⟩
          have hw2 : alookup (g.vm.new_source info.return_type).1.vertices i =
              some w := hw
          rcases add_edge_vertex_keys hae hw2 with ⟨w3, hw3, hk3⟩
          rcases htrans i w3 hw3 with ⟨w', hw', hk'⟩
          exact ⟨w', hw', fun t ht => hk' t (hk3 t ht)⟩
      | none =>
        simp only [hres] at h
        exact ih { g with type_errors := g.type_errors ++
            [⟨t, b.method_name, b.receiver, b.location⟩] } g' h hF

theorem applyGOp_mono_fresh {fuel : Nat} {op : GOp} {g g' : GlobalEnv}
    (h : applyGOp fuel g op = some g') (hF : FreshInv g.vm) :
    FreshInv g'.vm ∧ ∀ i w, alookup g.vm.vertices i = some w →
      ∃ w', alookup g'.vm.vertices i = some w' ∧
        ∀ t ∈ tkeys w.types, t ∈ tkeys w'.types := by
  cases op with
  | new_vertex =>
    simp only [applyGOp, Option.some_inj] at h
    subst h
    exact ⟨applyVOp_fresh hF (show applyVOp 0 g.vm VOp.new_vertex =
        some (g.vm.new_vertex).1 from rfl),
      fun i w hw => ⟨w, new_vertex_keeps hF hw, fun _ ht => ht⟩⟩
  | new_source ty =>
    simp only [applyGOp, Option.some_inj] at h
    subst h
    exact ⟨applyVOp_fresh hF (show applyVOp 0 g.vm (VOp.new_source ty) =
        some (g.vm.new_source ty).1 from rfl),
      fun i w hw => ⟨w, hw, fun _ ht => ht⟩⟩
  | add_edge src dst =>
    simp only [applyGOp] at h
    cases hae : g.vm.add_edge fuel src dst with
    | none => rw [hae] at h; cases h
    | some vm' =>
      rw [hae] at h
      cases h
      refine ⟨applyVOp_fresh hF (show applyVOp fuel g.vm (VOp.add_edge src dst) =
          some vm' from hae), fun i w hw => ?_⟩
      exact add_edge_vertex_keys hae hw
  | register recv name ret =>
    simp only [applyGOp, Option.some_inj] at h
    subst h
    exact ⟨hF, fun i w hw => ⟨w, hw, fun _ ht => ht⟩⟩
  | enter_class name =>
    simp only [applyGOp, Option.some_inj] at h
    subst h
    exact ⟨hF, fun i w hw => ⟨w, hw, fun _ ht => ht⟩⟩
  | enter_method name =>
    simp only [applyGOp, Option.some_inj] at h
    subst h
    exact ⟨hF, fun i w hw => ⟨w, hw, fun _ ht => ht⟩⟩
  | exit_scope =>
    simp only [applyGOp, Option.some_inj] at h
    subst h
    exact ⟨hF, fun i w hw => ⟨w, hw, fun _ ht => ht⟩⟩
  | set_ivar name vtx =>
    simp only [applyGOp, Option.some_inj] at h
    subst h
    exact ⟨hF, fun i w hw => ⟨w, hw, fun _ ht => ht⟩⟩
  | new_box recv name =>
    simp only [applyGOp, Option.some_inj] at h
    subst h
    exact ⟨applyVOp_fresh hF (show applyVOp 0 g.vm VOp.new_vertex =
        some (g.vm.new_vertex).1 from rfl),
      fun i w hw => ⟨w, new_vertex_keeps hF hw, fun _ ht => ht⟩⟩
  | fire id =>
    simp only [applyGOp, GlobalEnv.fire_box] at h
    cases hb : alookup g.boxes id with
    | none =>
      simp only [hb, Option.some_inj] at h
      subst h
      exact ⟨hF, fun i w hw => ⟨w, hw, fun _ ht => ht⟩⟩
    | some b =>
      simp only [hb] at h
      cases hft : fireTypes fuel b
          ((g.vm.get_types b.receiver).filter
            (fun t => !(decide (t ∈ b.seen_types)))) g with
      | none => simp only [hft] at h; cases h
      | some g1 =>
        simp only [hft, Option.some_inj] at h
        rcases fireTypes_vm fuel b _ g g1 hft hF with ⟨hF1, htrans⟩
        subst h
        exact ⟨hF1, htrans⟩

/-- C2: monotonicity of vertex type sets.  For every completed sequence of
engine operations (vertex and source creation, edge addition with its
propagation, registry seeding, scope manipulation, box installation and
box firing) started in a reachable state, every type present on a vertex
before is still present after: no operation ever removes a type. -/
theorem c2_types_monotone (fuel : Nat) (ops : List GOp) :
    ∀ (g g' : GlobalEnv), FreshInv g.vm → runGOps fuel ops g = some g' →
      ∀ i t, t ∈ typeKeysAt g.vm i → t ∈ typeKeysAt g'.vm i := by
  induction ops with
  | nil =>
    intro g g' _ h i t ht
    simp [runGOps] at h
    subst h
    exact ht
  | cons op rest ih =>
    intro g g' hF h i t ht
    simp only [runGOps] at h
    cases hop : applyGOp fuel g op with
    | none => rw [hop] at h; cases h
    | some gMid =>
      rw [hop] at h
      rcases applyGOp_mono_fresh hop hF with ⟨hFMid, htrans⟩
      refine ih gMid g' hFMid h i t ?_
      unfold typeKeysAt at ht ⊢
      cases hw : alookup g.vm.vertices i with
      | none => rw [hw] at ht; simp at ht
      | some w =>
        rw [hw] at ht
        rcases htrans i w hw with ⟨w', hw', hk'⟩
        rw [hw']
        exact hk' t ht

/-- The C2 witness environment: a String source feeding vertex 1. -/
def c2WitEnv : GlobalEnv :=
  (runGOps 10 [.new_source Ty.str, .new_vertex, .add_edge 0 1]
    GlobalEnv.new).getD GlobalEnv.new

/-- The C2 witness final state: the registry is seeded, a call box on
vertex 1 is installed and fired twice. -/
def c2WitEnv' : GlobalEnv :=
  (runGOps 10 [.register Ty.str ("upcase") Ty.str, .new_box 1 ("upcase"),
    .fire 0, .fire 0] c2WitEnv).getD GlobalEnv.new

/-- Witness for C2: the type on vertex 1 survives registry seeding, box
installation and two box firings. -/
theorem c2_types_monotone_witness : Ty.str ∈ typeKeysAt c2WitEnv'.vm 1 := by
  have h := c2_types_monotone 10
    [.register Ty.str ("upcase") Ty.str, .new_box 1 ("upcase"),
      .fire 0, .fire 0] c2WitEnv c2WitEnv' (by decide) (by decide) 1 Ty.str
  exact h (by decide)

/-- C6 (amended): `resolve` is a plain structural lookup with no `Bot`
special-casing, so `Bot` resolves no method exactly in those registry
states whose entries all have non-`Bot` receiver keys — which is every
state the engine itself builds, since `attr_methods.rs` registers only
`Instance` receivers and box firing registers nothing; and a receiver
whose type set holds only `Bot` fires without recording any `TypeError`
and without touching the graph, because the box skips `Bot` before
resolution. -/
theorem c6_bot_receiver_neutral :
    (∀ (r : Registry) (m : String), (∀ e ∈ r, e.1.1 ≠ Ty.bot) →
      r.resolve Ty.bot m = none) ∧
    (∀ (fuel : Nat) (g : GlobalEnv) (id : Nat) (b : MethodCallBox),
      alookup g.boxes id = some b →
      (∀ t ∈ g.vm.get_types b.receiver, t = Ty.bot) →
      ∃ g', g.fire_box fuel id = some g' ∧ g'.vm = g.vm ∧
        g'.type_errors = g.type_errors ∧ g'.registry = g.registry) := by
  have hbots : ∀ (fuel : Nat) (b : MethodCallBox) (ts : List Ty)
      (g : GlobalEnv), (∀ t ∈ ts, t = Ty.bot) → fireTypes fuel b ts g = some g := by
    intro fuel b ts
    induction ts with
    | nil => intro g _; rfl
    | cons t rest ihts =>
      intro g hall
      have ht : t = Ty.bot := hall t (List.mem_cons_self _ _)
      simp only [fireTypes, ht, if_pos rfl]
      exact ihts g (fun t' ht' => hall t' (List.mem_cons_of_mem _ ht'))
  constructor
  · intro r m hall
    unfold Registry.resolve
    induction r with
    | nil => rfl
    | cons e rest ihr =>
      obtain ⟨k, info⟩ := e
      by_cases hk : k = (Ty.bot, m)
      · exfalso
        have := hall (k, info) (List.mem_cons_self _ _)
        rw [hk] at this
        exact this rfl
      · simp only [alookup, hk, if_false]
        exact ihr (fun e he => hall e (List.mem_cons_of_mem _ he))
  · intro fuel g id b hb hall
    have hft : fireTypes fuel b
        ((g.vm.get_types b.receiver).filter
          (fun t => !(decide (t ∈ b.seen_types)))) g = some g := by
      apply hbots
      intro t ht
      exact hall t (List.mem_of_mem_filter ht)
    unfold GlobalEnv.fire_box
    simp only [hb]
    simp only [hft]
    exact ⟨_, rfl, rfl, rfl, rfl⟩

/-- The C6 witness box: a call to `upcase` with receiver vertex 0. -/
def c6WitBox : MethodCallBox := ⟨0, 0, ("upcase"), 1, none, []⟩

/-- The C6 witness environment: vertex 0 holds only `Bot` and box 0 is
subscribed to it; the registry knows `upcase` only on `Instance String`. -/
def c6WitEnv : GlobalEnv :=
  ⟨⟨[(0, ⟨[(Ty.bot, [3])], [], []⟩)], [], 1⟩,
    Registry.empty.register Ty.str ("upcase") Ty.str, [], [(0, c6WitBox)], [], 1⟩

/-- Witness for C6 (amended): in the seeded registry `Bot` resolves
nothing, and firing the box whose receiver holds only `Bot` leaves the
graph, the error list and the registry untouched. -/
theorem c6_bot_receiver_neutral_witness :
    ((Registry.empty.register Ty.str ("upcase") Ty.str).resolve Ty.bot
        ("upcase") = none) ∧
      ((c6WitEnv.fire_box 5 0).getD GlobalEnv.new).vm = c6WitEnv.vm ∧
      ((c6WitEnv.fire_box 5 0).getD GlobalEnv.new).type_errors =
        c6WitEnv.type_errors := by
  refine ⟨c6_bot_receiver_neutral.1 _ ("upcase") (by decide), ?_⟩
  obtain ⟨g', h1, h2, h3, _⟩ :=
    c6_bot_receiver_neutral.2 5 c6WitEnv 0 c6WitBox (by decide) (by decide)
  rw [h1]
  exact ⟨h2, h3⟩

/-! ## Attribute declarations (`src/rust/src/analyzer/attr_methods.rs`) -/

/-- An argument node, restricted to what `extract_symbol_arguments`
inspects: either a symbol literal (with its unescaped name) or anything
else. -/
inductive ArgNode where
  | symbol (name : String)
  | other
deriving DecidableEq

/-- The shape of a `ruby_prism` `CallNode` as used by `attr_methods.rs`:
whether a receiver is present (the node itself is opaque), the method
name, and the argument list. -/
structure CallNode where
  receiver : Option Nat
  name : String
  args : List ArgNode
deriving DecidableEq

/-- `extract_symbol_arguments`: the names of the symbol arguments, in
order. -/
def extract_symbol_arguments (c : CallNode) : List String :=
  c.args.filterMap (fun a =>
    match a with
    | .symbol s => some s
    | .other => none)

/-- The loop body of `process_attr_reader`: look `@<name>` up in the
current class scope, take the first type on that vertex (`types.keys()
.next()`) or `Bot`, and register the getter under
`(Instance current_class, name)`. -/
def readerStep (class_name : String) (g' : GlobalEnv) (attr_name : String) :
    GlobalEnv :=
  let ivar_name := ("@") ++ attr_name
  let return_type :=
    ((lookupInstanceVar g'.scope_manager ivar_name).bind (fun vtx =>
      (g'.get_vertex vtx).bind (fun v => (tkeys v.types).head?))).getD Ty.bot
  g'.register_builtin_method (Ty.instance class_name) attr_name return_type

/-- `process_attr_reader`: outside a class scope do nothing, otherwise run
`readerStep` over the symbol arguments. -/
def process_attr_reader (g : GlobalEnv) (c : CallNode) : GlobalEnv :=
  match currentClassName g.scope_manager with
  | none => g
  | some class_name =>
    (extract_symbol_arguments c).foldl (readerStep class_name) g

/-- `process_attr_writer`: outside a class scope do nothing, otherwise
register `<name>=` with return type `Bot` for each symbol argument. -/
def process_attr_writer (g : GlobalEnv) (c : CallNode) : GlobalEnv :=
  match currentClassName g.scope_manager with
  | none => g
  | some class_name =>
    (extract_symbol_arguments c).foldl (fun g' attr_name =>
      g'.register_builtin_method (Ty.instance class_name)
        (attr_name ++ ("=")) Ty.bot) g

/-- `process_attr_accessor`: reader followed by writer. -/
def process_attr_accessor (g : GlobalEnv) (c : CallNode) : GlobalEnv :=
  process_attr_writer (process_attr_reader g c) c

/-- `try_process_attr_method`: only receiver-less calls named
`attr_reader` / `attr_writer` / `attr_accessor` are attribute
declarations; the flag tells whether the call was consumed. -/
def try_process_attr_method (g : GlobalEnv) (c : CallNode) :
    Bool × GlobalEnv :=
  if c.receiver.isSome then (false, g)
  else if c.name = "attr_reader" then (true, process_attr_reader g c)
  else if c.name = "attr_writer" then (true, process_attr_writer g c)
  else if c.name = "attr_accessor" then (true, process_attr_accessor g c)
  else (false, g)

/-- The return type `process_attr_reader` computes for one attribute: the
first type on the vertex bound to `@<name>` in the nearest class scope, or
`Bot` when unbound or empty. -/
def readerReturnType (g : GlobalEnv) (attr_name : String) : Ty :=
  ((lookupInstanceVar g.scope_manager (("@") ++ attr_name)).bind (fun vtx =>
    (g.get_vertex vtx).bind (fun v => (tkeys v.types).head?))).getD Ty.bot

theorem readerStep_scope_vm (cn : String) (g : GlobalEnv) (a : String) :
    (readerStep cn g a).scope_manager = g.scope_manager ∧
      (readerStep cn g a).vm = g.vm :=
  ⟨rfl, rfl⟩

theorem readerReturnType_congr {g g' : GlobalEnv}
    (hs : g'.scope_manager = g.scope_manager) (hv : g'.vm = g.vm)
    (a : String) : readerReturnType g' a = readerReturnType g a := by
  unfold readerReturnType GlobalEnv.get_vertex
  rw [hs, hv]

theorem readerFold_scope_vm (cn : String) :
    ∀ (names : List String) (g : GlobalEnv),
      (names.foldl (readerStep cn) g).scope_manager = g.scope_manager ∧
        (names.foldl (readerStep cn) g).vm = g.vm := by
  intro names
  induction names with
  | nil => intro g; exact ⟨rfl, rfl⟩
  | cons a rest ih =>
    intro g
    simp only [List.foldl_cons]
    rcases ih (readerStep cn g a) with ⟨h1, h2⟩
    exact ⟨h1.trans (readerStep_scope_vm cn g a).1,
      h2.trans (readerStep_scope_vm cn g a).2⟩

theorem readerFold_other (cn : String) :
    ∀ (names : List String) (g : GlobalEnv) (recv : Ty) (n : String),
      (∀ a ∈ names, ¬(recv = Ty.instance cn ∧ n = a)) →
      (names.foldl (readerStep cn) g).registry.resolve recv n =
        g.registry.resolve recv n := by
  intro names
  induction names with
  | nil => intro g recv n _; rfl
  | cons a rest ih =>
    intro g recv n hnone
    simp only [List.foldl_cons]
    rw [ih (readerStep cn g a) recv n
      (fun b hb => hnone b (List.mem_cons_of_mem _ hb))]
    unfold readerStep GlobalEnv.register_builtin_method Registry.register
      Registry.resolve
    rw [alookup_ainsert_ne]
    intro he
    exact hnone a (List.mem_cons_self _ _) ⟨congrArg Prod.fst he.symm,
      (congrArg Prod.snd he).symm⟩

theorem readerFold_resolve (cn : String) :
    ∀ (names : List String) (g : GlobalEnv), ∀ a ∈ names,
      (names.foldl (readerStep cn) g).registry.resolve (Ty.instance cn) a =
        some ⟨readerReturnType g a⟩ := by
  intro names
  induction names with
  | nil => intro g a ha; simp at ha
  | cons a0 rest ih =>
    intro g a ha
    simp only [List.foldl_cons]
    have hsv := readerStep_scope_vm cn g a0
    by_cases hmem : a ∈ rest
    · rw [ih (readerStep cn g a0) a hmem]
      rw [readerReturnType_congr hsv.1 hsv.2 a]
    · have ha0 : a = a0 := by
        rcases List.mem_cons.1 ha with h | h
        · exact h
        · exact absurd h hmem
      subst ha0
      rw [readerFold_other cn rest (readerStep cn g a) (Ty.instance cn) a]
      · unfold readerStep GlobalEnv.register_builtin_method Registry.register
          Registry.resolve
        rw [alookup_ainsert_self]
        rfl
      · intro b hb hcontra
        rw [hcontra.2] at hmem
        exact hmem hb

/-- C8: a receiver-less `attr_reader` call with symbol arguments inside a
ClassScope registers, for each symbol name, the key `(Instance
current_class, name)` with return type the first type currently on the
vertex bound to `@name` in the enclosing class scope (or `Bot` when
unbound or empty); and outside any ClassScope, `attr_reader`,
`attr_writer` and `attr_accessor` are consumed silently: they register
nothing, record no error, and leave the environment unchanged. -/
theorem c8_attr_reader_registration :
    (∀ (g : GlobalEnv) (c : CallNode) (cn : String),
      c.receiver = none → c.name = "attr_reader" →
      currentClassName g.scope_manager = some cn →
      (try_process_attr_method g c).1 = true ∧
      ∀ a ∈ extract_symbol_arguments c,
        ((try_process_attr_method g c).2).registry.resolve (Ty.instance cn) a =
          some ⟨readerReturnType g a⟩) ∧
    (∀ (g : GlobalEnv) (c : CallNode),
      c.receiver = none → currentClassName g.scope_manager = none →
      (c.name = "attr_reader" ∨ c.name = "attr_writer" ∨
        c.name = "attr_accessor") →
      try_process_attr_method g c = (true, g)) := by
  constructor
  · intro g c cn hrecv hname hcn
    have hproc : try_process_attr_method g c = (true, process_attr_reader g c) := by
      unfold try_process_attr_method
      rw [hrecv, hname]
      rfl
    rw [hproc]
    refine ⟨rfl, ?_⟩
    intro a ha
    show (process_attr_reader g c).registry.resolve (Ty.instance cn) a =
      some ⟨readerReturnType g a⟩
    unfold process_attr_reader
    rw [hcn]
    exact readerFold_resolve cn (extract_symbol_arguments c) g a ha
  · intro g c hrecv hcn hname
    have hreader : process_attr_reader g c = g := by
      unfold process_attr_reader
      rw [hcn]
    have hwriter : process_attr_writer g c = g := by
      unfold process_attr_writer
      rw [hcn]
    rcases hname with h | h | h
    · unfold try_process_attr_method
      rw [hrecv, h]
      simp [hreader]
    · unfold try_process_attr_method
      rw [hrecv, h]
      simp [hwriter]
    · unfold try_process_attr_method
      rw [hrecv, h]
      simp [process_attr_accessor, hreader, hwriter]

/-- The C8 witness environment: inside `class User`, the instance variable
`@name` is bound to vertex 0, which holds `String`. -/
def c8WitEnv : GlobalEnv :=
  ⟨⟨[(0, ⟨[(Ty.str, [1])], [], []⟩)], [], 1⟩, Registry.empty,
    [.classScope ("User") [(("@name"), 0)]], [], [], 0⟩

/-- The C8 witness call: `attr_reader :name` with no receiver. -/
def c8WitCall : CallNode := ⟨none, ("attr_reader"), [.symbol ("name")]⟩

/-- A C8 environment with only a method scope (no class scope). -/
def c8NoClassEnv : GlobalEnv :=
  ⟨VertexManager.new, Registry.empty, [.methodScope ("m")], [], [], 0⟩

/-- The C8 witness call for the no-class case: `attr_writer :a`. -/
def c8WitCall2 : CallNode := ⟨none, ("attr_writer"), [.symbol ("a")]⟩

/-- Witness for C8: processing `attr_reader :name` inside `class User`
registers `(Instance User, name)` returning `String`; outside any class
scope `attr_writer :a` is consumed and the environment is unchanged. -/
theorem c8_attr_reader_registration_witness :
    ((try_process_attr_method c8WitEnv c8WitCall).1 = true ∧
      ((try_process_attr_method c8WitEnv c8WitCall).2).registry.resolve
        (Ty.instance ("User")) ("name") = some ⟨Ty.str⟩) ∧
      try_process_attr_method c8NoClassEnv c8WitCall2 = (true, c8NoClassEnv) := by
  constructor
  · have h := c8_attr_reader_registration.1 c8WitEnv c8WitCall ("User")
      rfl rfl (by decide)
    refine ⟨h.1, ?_⟩
    have h2 := h.2 ("name") (by decide)
    rw [h2]
    decide
  · exact c8_attr_reader_registration.2 c8NoClassEnv c8WitCall2 rfl
      (by decide) (Or.inr (Or.inl rfl))

/-! ## Display (claim C9)

The first half of the display rules is `Type::show` above
(`src/src/types.rs`).  The multi-type vertex rendering is `Vertex::show`
of the missing `graph` module; it is modelled from §4.1 of the spec and
pinned by `test_union_propagation` (`"(Integer | String)"`) and
`test_edge_propagation` (`"String"`). -/

/-- Lexicographic comparison of character lists. -/
def charListLe : List Char → List Char → Bool
  | [], _ => true
  | _ :: _, [] => false
  | a :: as, b :: bs => if a = b then charListLe as bs else decide (a < b)

/-- Lexicographic comparison of strings (the order `sort` uses on the
shown member strings). -/
def strLe (a b : String) : Bool := charListLe a.data b.data

/-- The sorting relation on shown member strings. -/
def strLeRel (a b : String) : Prop := strLe a b = true

instance : DecidableRel strLeRel := fun a b =>
  inferInstanceAs (Decidable (strLe a b = true))

theorem charListLe_total : ∀ (as bs : List Char),
    charListLe as bs = true ∨ charListLe bs as = true := by
  intro as
  induction as with
  | nil => intro bs; left; rfl
  | cons a as ih =>
    intro bs
    cases bs with
    | nil => right; rfl
    | cons b bs =>
      by_cases hab : a = b
      · subst hab
        simp only [charListLe, if_pos rfl]
        exact ih bs
      · rcases lt_or_gt_of_ne hab with h | h
        · left
          simp [charListLe, hab, h]
        · right
          have hba : ¬(b = a) := fun he => hab he.symm
          simp [charListLe, hba, h]

theorem charListLe_trans : ∀ (as bs cs : List Char),
    charListLe as bs = true → charListLe bs cs = true →
    charListLe as cs = true := by
  intro as
  induction as with
  | nil => intro bs cs _ _; rfl
  | cons a as ih =>
    intro bs cs h1 h2
    cases bs with
    | nil => simp [charListLe] at h1
    | cons b bs =>
      cases cs with
      | nil => simp [charListLe] at h2
      | cons c cs =>
        by_cases hab : a = b <;> by_cases hbc : b = c
        · subst hab
          subst hbc
          simp only [charListLe, if_pos rfl] at h1 h2 ⊢
          exact ih _ _ h1 h2
        · subst hab
          simp only [charListLe, if_pos rfl] at h1
          simp only [charListLe, hbc, if_false, decide_eq_true_eq] at h2
          simp [charListLe, hbc, h2]
        · subst hbc
          simp only [charListLe, hab, if_false, decide_eq_true_eq] at h1
          simp [charListLe, hab, h1]
        · simp only [charListLe, hab, if_false, decide_eq_true_eq] at h1
          simp only [charListLe, hbc, if_false, decide_eq_true_eq] at h2
          have hac : a < c := lt_trans h1 h2
          have hnac : ¬(a = c) := ne_of_lt hac
          simp [charListLe, hnac, hac]

theorem charListLe_antisymm : ∀ (as bs : List Char),
    charListLe as bs = true → charListLe bs as = true → as = bs := by
  intro as
  induction as with
  | nil =>
    intro bs h1 h2
    cases bs with
    | nil => rfl
    | cons b bs => simp [charListLe] at h2
  | cons a as ih =>
    intro bs h1 h2
    cases bs with
    | nil => simp [charListLe] at h1
    | cons b bs =>
      by_cases hab : a = b
      · subst hab
        simp only [charListLe, if_pos rfl] at h1 h2
        rw [ih bs h1 h2]
      · have hba : ¬(b = a) := fun he => hab he.symm
        simp only [charListLe, hab, if_false, decide_eq_true_eq] at h1
        simp only [charListLe, hba, if_false, decide_eq_true_eq] at h2
        exact absurd h2 (asymm h1)

instance : IsTotal String strLeRel :=
  ⟨fun a b => charListLe_total a.data b.data⟩

instance : IsTrans String strLeRel :=
  ⟨fun a b c => charListLe_trans a.data b.data c.data⟩

instance : IsAntisymm String strLeRel :=
  ⟨fun a b h1 h2 => by
    have hd := charListLe_antisymm a.data b.data h1 h2
    cases a
    cases b
    exact congrArg String.mk hd⟩

/-- Modelled from the spec: `Vertex::show` of the missing `graph` module.
The empty type set renders as `untyped` (§3), a single type by its own
`show` (`test_edge_propagation`), and two or more types as
`(T1 | T2 | …)` with the member strings sorted lexicographically for
determinism (§4.1; `test_union_propagation` expects
`"(Integer | String)"`). -/
def Vertex.show (v : Vertex) : String :=
  match List.insertionSort strLeRel ((tkeys v.types).map Ty.show) with
  | [] => "untyped"
  | [n] => n
  | ns => "(" ++ String.intercalate (" | ") ns ++ ")"

/-- C9: the display rules — `Instance{C}` shows as `C`, `Singleton{C}` as
`singleton(C)`, `Nil` as `nil`, `Bot` as `untyped`; a vertex holding two
or more types renders as `(T1 | T2 | …)` with the member strings sorted
lexicographically; and the rendering is deterministic: two vertices whose
type sets are permutations of each other render identically. -/
theorem c9_show_rules :
    (∀ c, Ty.show (.instance c) = c) ∧
    (∀ c, Ty.show (.singleton c) = ("singleton(") ++ c ++ (")")) ∧
    Ty.show .nil = ("nil") ∧
    Ty.show .bot = ("untyped") ∧
    (∀ v : Vertex, 2 ≤ v.types.length →
      Vertex.show v = ("(") ++ String.intercalate (" | ")
        (List.insertionSort strLeRel ((tkeys v.types).map Ty.show)) ++ (")")) ∧
    (∀ v w : Vertex, List.Perm (tkeys v.types) (tkeys w.types) →
      Vertex.show v = Vertex.show w) := by
  refine ⟨fun c => rfl, fun c => rfl, rfl, rfl, ?_, ?_⟩
  · intro v hlen
    have hl : (List.insertionSort strLeRel
        ((tkeys v.types).map Ty.show)).length = v.types.length := by
      rw [List.length_insertionSort, List.length_map]
      simp [tkeys]
    unfold Vertex.show
    cases hns : List.insertionSort strLeRel ((tkeys v.types).map Ty.show) with
    | nil =>
      rw [hns] at hl
      simp at hl
      omega
    | cons n1 rest =>
      cases rest with
      | nil =>
        rw [hns] at hl
        simp at hl
        omega
      | cons n2 rest2 => rfl
  · intro v w hperm
    have hsorteq : List.insertionSort strLeRel ((tkeys v.types).map Ty.show) =
        List.insertionSort strLeRel ((tkeys w.types).map Ty.show) := by
      have hp : (List.insertionSort strLeRel
          ((tkeys v.types).map Ty.show)).Perm
          (List.insertionSort strLeRel ((tkeys w.types).map Ty.show)) :=
        ((List.perm_insertionSort _ _).trans
          (hperm.map Ty.show)).trans (List.perm_insertionSort _ _).symm
      have hs1 : List.Sorted strLeRel
          (List.insertionSort strLeRel ((tkeys v.types).map Ty.show)) :=
        List.sorted_insertionSort _ _
      have hs2 : List.Sorted strLeRel
          (List.insertionSort strLeRel ((tkeys w.types).map Ty.show)) :=
        List.sorted_insertionSort _ _
      exact List.eq_of_perm_of_sorted hp hs1 hs2
    unfold Vertex.show
    rw [hsorteq]

/-- The C9 witness vertex: `String` then `Integer`. -/
def c9WitVertex : Vertex := ⟨[(Ty.str, [0]), (Ty.int, [1])], [], []⟩

/-- The C9 witness vertex with the same types in the other order. -/
def c9WitVertex2 : Vertex := ⟨[(Ty.int, [4]), (Ty.str, [0])], [], []⟩

/-- Witness for C9: the two-type vertex renders `(Integer | String)`
(sorted, parenthesised, exactly as `test_union_propagation` expects), and
the insertion order does not matter. -/
theorem c9_show_rules_witness :
    Vertex.show c9WitVertex = ("(Integer | String)") ∧
      Vertex.show c9WitVertex = Vertex.show c9WitVertex2 := by
  constructor
  · have h := c9_show_rules.2.2.2.2.1 c9WitVertex (by decide)
    rw [h]
    decide
  · exact c9_show_rules.2.2.2.2.2 c9WitVertex c9WitVertex2 (by decide)

end MethodRay
